import Mathlib

/-!
Verification of the DPLL-Seq sequential SAT solver.

The development shallowly embeds the Rust sources (src/lib.rs, src/main.rs)
into Lean:

* machine integers i32 become Int (the solver performs no arithmetic that
  can overflow on the inputs considered here);
* HashMap<i32, Option<bool>> becomes an association list; every operation
  the solver performs on its maps (get, insert, contains, remove, and the
  key collection in get_assignment_keys, which sorts) is independent of
  HashMap iteration order, so the association list is an order-faithful
  model of the observable behaviour;
* the recursion of build_search_tree and the driver loop of main are given
  an explicit fuel argument counting node expansions (one unit per
  invocation of build_search_tree); running out of fuel is reported as a
  distinguished outcome, as is the out-of-bounds index panic the Rust code
  can hit on unassigned_var[0].
-/

namespace DPLL

/-- Absolute value on Int, as the i32::abs calls used throughout the solver. -/
def iabs (x : Int) : Int := if x < 0 then -x else x

/-- The assignment table: variable id to tri-state value (None = Unknown),
modelling HashMap<i32, Option<bool>> as an association list. -/
abbrev Assign := List (Int × Option Bool)

/-- HashMap::get. -/
def lookupA : Assign → Int → Option (Option Bool)
  | [], _ => none
  | (k, w) :: rest, x => if k = x then some w else lookupA rest x

/-- HashMap::insert: overwrite the binding if the key is present, otherwise
add a new binding. -/
def insertA : Assign → Int → Option Bool → Assign
  | [], k, w => [(k, w)]
  | (k0, w0) :: rest, k, w =>
    if k0 = k then (k, w) :: rest else (k0, w0) :: insertA rest k w

/-- HashMap::contains_key. -/
def containsA (m : Assign) (k : Int) : Bool := (lookupA m k).isSome

/-- Boolean-valued map used by pure_literal_elimination
(HashMap<i32, bool>), also as an association list. -/
abbrev BMap := List (Int × Bool)

/-- HashMap::get for the boolean maps. -/
def lookupB : BMap → Int → Option Bool
  | [], _ => none
  | (k, w) :: rest, x => if k = x then some w else lookupB rest x

/-- HashMap::insert for the boolean maps. -/
def insertB : BMap → Int → Bool → BMap
  | [], k, w => [(k, w)]
  | (k0, w0) :: rest, k, w =>
    if k0 = k then (k, w) :: rest else (k0, w0) :: insertB rest k w

/-- HashMap::contains_key for the boolean maps. -/
def containsB (m : BMap) (k : Int) : Bool := (lookupB m k).isSome

/-- HashMap::remove for the boolean maps (drops the binding for the key). -/
def removeB : BMap → Int → BMap
  | [], _ => []
  | (k0, w0) :: rest, k => if k0 = k then rest else (k0, w0) :: removeB rest k

/-! ## read_cnf_file -/

/-- Tokenized input line of a DIMACS-style CNF file, after the file IO and
string-to-integer parsing that read_cnf_file performs (both abort the
program on failure and are not modelled): a comment or blank line, the
problem line, or a data line whose integer tokens are listed in order. -/
inductive CnfLine where
  | comment : CnfLine
  | problem : CnfLine
  | data : List Int → CnfLine

/-- One step of the clause accumulator of read_cnf_file: a 0 token emits the
accumulated clause and resets the accumulator, any other token is appended
to the accumulator. -/
def lineStep (st : List Int × List (List Int)) (tok : Int) : List Int × List (List Int) :=
  if tok = 0 then ([], st.2 ++ [st.1]) else (st.1 ++ [tok], st.2)

/-- Processing of one data line of read_cnf_file: the accumulator is a fresh
local variable, so it starts empty and whatever remains in it at the end of
the line is dropped. -/
def parseDataLine (tokens : List Int) (clauses : List (List Int)) : List (List Int) :=
  (tokens.foldl lineStep ([], clauses)).2

/-- Dispatch of read_cnf_file on one input line. -/
def lineClauses (clauses : List (List Int)) : CnfLine → List (List Int)
  | .comment => clauses
  | .problem => clauses
  | .data toks => parseDataLine toks clauses

/-- read_cnf_file, modelled on the token stream: the clause list accumulated
over all input lines. -/
def read_cnf_file (lines : List CnfLine) : List (List Int) :=
  lines.foldl lineClauses []

/-! ## initial_assignment -/

/-- Inner loop of initial_assignment over the literals of one clause. -/
def addClauseVars (A : Assign) : List Int → Assign
  | [] => A
  | lit :: rest =>
    addClauseVars (if containsA A (iabs lit) then A else insertA A (iabs lit) none) rest

/-- Outer loop of initial_assignment over the clauses. -/
def initialAssignGo (A : Assign) : List (List Int) → Assign
  | [] => A
  | c :: cs => initialAssignGo (addClauseVars A c) cs

/-- initial_assignment: map every variable occurring in the formula to
Unknown. -/
def initial_assignment (formula : List (List Int)) : Assign :=
  initialAssignGo [] formula

/-! ## simplify_formula -/

/-- Inner loop of simplify_formula: a clause is satisfied when some literal
evaluates to true under the assignment (a positive literal whose variable is
True, or a negative literal whose variable is False). -/
def clauseSatisfiedB (A : Assign) (clause : List Int) : Bool :=
  clause.any fun lit =>
    if 0 < lit then lookupA A lit == some (some true)
    else lookupA A (iabs lit) == some (some false)

/-- simplify_formula: keep exactly the clauses not yet satisfied by the
assignment, unchanged and in order. -/
def simplify_formula (formula : List (List Int)) (A : Assign) : List (List Int) :=
  formula.filter fun c => !(clauseSatisfiedB A c)

/-! ## pure_literal_elimination -/

/-- State of the pure-literal scan: the candidate map pure_literals (keyed
by the signed literal of the first sighting) and the sticky eviction map
removed_literals (keyed by both key and -key). -/
structure PLState where
  pureL : BMap
  removedL : BMap
deriving DecidableEq

/-- Processing of one literal by the pure-literal scan of
pure_literal_elimination. -/
def pleStep (st : PLState) (lit : Int) : PLState :=
  let key := iabs lit
  if !(containsB st.removedL key) && !(containsB st.removedL (-key)) then
    if !(containsB st.pureL key) && !(containsB st.pureL (-key)) then
      { st with pureL := insertB st.pureL lit (decide (0 < lit)) }
    else if containsB st.pureL (-lit) then
      { pureL := removeB st.pureL (-lit),
        removedL := insertB (insertB st.removedL key false) (-key) false }
    else st
  else st

/-- Pure-literal scan over one clause. -/
def pleClause (st : PLState) (c : List Int) : PLState := c.foldl pleStep st

/-- Pure-literal scan over the whole formula. -/
def pleScan (formula : List (List Int)) : PLState :=
  formula.foldl pleClause { pureL := [], removedL := [] }

/-- Assignment updates performed by pure_literal_elimination: each surviving
candidate (key, val) yields assignment.insert(key.abs(), Some(val)).
The Rust code iterates the HashMap in unspecified order; the surviving keys
have pairwise distinct absolute values, so the resulting map does not depend
on the order and the list order used here is a faithful model. -/
def applyPure (A : Assign) : BMap → Assign
  | [] => A
  | (k, b) :: rest => applyPure (insertA A (iabs k) (some b)) rest

/-- pure_literal_elimination: run the scan, assign every surviving pure
candidate, and return the formula simplified under the updated assignment
together with that assignment (the Rust function mutates the assignment in
place; the model returns it). -/
def pure_literal_elimination (formula : List (List Int)) (A : Assign) :
    List (List Int) × Assign :=
  let st := pleScan formula
  let A2 := applyPure A st.pureL
  (simplify_formula formula A2, A2)

/-! ## Node and false_check -/

/-- Search node. The Rust field named variable is called var here, because
variable is a Lean keyword. var = 0 is the root sentinel. -/
structure Node where
  formula : List (List Int)
  value : Option Bool
  var : Int
  assignment : Assign
deriving DecidableEq

/-- Classification of one literal by the scanning loop of false_check,
relative to the node data (decided variable v, decided value val,
pre-decision assignment A): sat sets true_flag and breaks, fals increments
false_num, skip leaves both counters alone (the skip case covers both the
explicit continue on an Unknown variable and the silent fall-through on a
variable absent from the assignment). -/
inductive LitClass where
  | sat : LitClass
  | fals : LitClass
  | skip : LitClass
deriving DecidableEq

/-- The if/else cascade of the false_check literal loop, literally. -/
def classifyLit (v : Int) (val : Option Bool) (A : Assign) (lit : Int) : LitClass :=
  if 0 < lit then
    if lit = v then
      if val = some true then .sat else .fals
    else if lookupA A lit = some none then .skip
    else if lookupA A lit = some (some true) then .sat
    else if lookupA A lit = some (some false) then .fals
    else .skip
  else
    if lit = -v then
      if val = some false then .sat else .fals
    else if lookupA A (iabs lit) = some none then .skip
    else if lookupA A (iabs lit) = some (some false) then .sat
    else if lookupA A (iabs lit) = some (some true) then .fals
    else .skip

/-- Literal loop of false_check over one clause, returning
(true_flag, false_num, lit_num); a sat literal breaks out of the loop, so
literals after it are not counted. -/
def scanClause (v : Int) (val : Option Bool) (A : Assign) : List Int → Bool × Nat × Nat
  | [] => (false, 0, 0)
  | lit :: rest =>
    match classifyLit v val A lit with
    | .sat => (true, 0, 1)
    | .fals =>
      let r := scanClause v val A rest
      (r.1, r.2.1 + 1, r.2.2 + 1)
    | .skip =>
      let r := scanClause v val A rest
      (r.1, r.2.1, r.2.2 + 1)

/-- Clause loop of false_check: an early return 0 on the first clause whose
counters satisfy false_num = lit_num is modelled by none; otherwise the
final true_num is returned. -/
def checkClauses (v : Int) (val : Option Bool) (A : Assign) :
    List (List Int) → Nat → Option Nat
  | [], tn => some tn
  | c :: rest, tn =>
    let r := scanClause v val A c
    if r.2.1 = r.2.2 then none
    else checkClauses v val A rest (if r.1 then tn + 1 else tn)

/-- false_check: 0 = CONFLICT, 2 = SOLUTION (all clauses short-circuited as
true), 1 = UNDETERMINED. -/
def false_check (node : Node) : Int :=
  match checkClauses node.var node.value node.assignment node.formula 0 with
  | none => 0
  | some tn => if tn = node.formula.length then 2 else 1

/-! ## Search driver -/

/-- Insertion of one integer into a sorted list (ascending). -/
def insortInt (x : Int) : List Int → List Int
  | [] => [x]
  | y :: ys => if x ≤ y then x :: y :: ys else y :: insortInt x ys

/-- Insertion sort on integers, modelling sort_unstable (the sorted result
is unique, so stability is irrelevant). -/
def sortInts : List Int → List Int
  | [] => []
  | x :: xs => insortInt x (sortInts xs)

/-- get_assignment_keys: the keys still mapped to Unknown, in ascending
order. -/
def get_assignment_keys (A : Assign) : List Int :=
  sortInts ((A.filter fun p => p.2.isNone).map Prod.fst)

/-- add_task: push onto the LIFO task stack (list head = top of stack). -/
def add_task (node : Node) (tasklist : List Node) : List Node :=
  node :: tasklist

/-- Solution post-processing of the SOLUTION branch: every variable still
Unknown is defaulted to True. -/
def defaultTrue : Assign → Assign
  | [] => []
  | (k, w) :: rest => (k, if w.isNone then some true else w) :: defaultTrue rest

/-- Outcome of one call to build_search_tree. panicked marks the
out-of-bounds index unassigned_var[0] on an empty vector; backtrack is the
Rust return false (CONFLICT, control goes back to the driver loop); solved
is the Rust return true together with the printed assignment. Both carry
the fuel remaining after the expansions performed by the call. -/
inductive BstResult where
  | outOfFuel : BstResult
  | panicked : BstResult
  | backtrack : Nat → List Node → BstResult
  | solved : Nat → Assign → BstResult
deriving DecidableEq

/-- build_search_tree. One unit of fuel is consumed per invocation, so fuel
counts node expansions along the chain of direct recursion. -/
def build_search_tree : Nat → Node → List Node → BstResult
  | 0, _, _ => .outOfFuel
  | fuel + 1, node, tasklist =>
    if node.var = 0 then
      match get_assignment_keys node.assignment with
      | [] => .panicked
      | d :: _ =>
        build_search_tree fuel ⟨node.formula, some true, d, node.assignment⟩
          (add_task ⟨node.formula, some false, d, node.assignment⟩ tasklist)
    else if false_check node = 0 then
      .backtrack fuel tasklist
    else if false_check node = 2 then
      .solved fuel (defaultTrue (insertA node.assignment node.var node.value))
    else
      let newA := insertA node.assignment node.var node.value
      let newF := simplify_formula node.formula newA
      match get_assignment_keys newA with
      | [] => .panicked
      | d :: _ =>
        build_search_tree fuel ⟨newF, some true, d, newA⟩
          (add_task ⟨newF, some false, d, newA⟩ tasklist)

/-- Verdict of a whole solver run. -/
inductive Verdict where
  | outOfFuel : Verdict
  | panicked : Verdict
  | sat : Assign → Verdict
  | unsat : Verdict
deriving DecidableEq

/-- The driver loop of main: while the task list is non-empty, pop a node
and expand it; a found solution stops the loop, exhaustion of the stack is
UNSATISFIED. iter bounds the number of loop iterations (each iteration
consumes at least one unit of fuel, so iter = fuel never cuts a run short),
and the fuel left by each expansion is threaded into the next iteration so
that fuel counts node expansions across the whole run. -/
def search_loop : Nat → Nat → List Node → Verdict
  | _, _, [] => .unsat
  | 0, _, _ :: _ => .outOfFuel
  | iter + 1, fuel, node :: rest =>
    match build_search_tree fuel node rest with
    | .outOfFuel => .outOfFuel
    | .panicked => .panicked
    | .solved _ sol => .sat sol
    | .backtrack fuelLeft tl => search_loop iter fuelLeft tl

/-- The root node built by main: pure-literal elimination applied to the
parsed formula over its initial all-Unknown assignment, root sentinel 0. -/
def mkRoot (formula : List (List Int)) : Node :=
  let A := initial_assignment formula
  let r := pure_literal_elimination formula A
  ⟨r.1, none, 0, r.2⟩

/-- Whole solver pipeline of main, from parsed formula to verdict. -/
def run_solver (fuel : Nat) (formula : List (List Int)) : Verdict :=
  search_loop fuel fuel [mkRoot formula]

/-! ## Specification-level predicates (from the wording of the spec) -/

/-- A literal is true under an assignment: positive literal whose variable
is True, or negative literal whose variable is False. -/
def litTrueUnder (A : Assign) (lit : Int) : Prop :=
  if 0 < lit then lookupA A lit = some (some true)
  else lookupA A (iabs lit) = some (some false)

/-- A clause has at least one literal true under the assignment. -/
def clauseSatA (A : Assign) (c : List Int) : Prop :=
  ∃ lit ∈ c, litTrueUnder A lit

/-- Lookup into the hypothetical assignment A extended with v := b. -/
def extLookup (A : Assign) (v : Int) (b : Bool) (x : Int) : Option (Option Bool) :=
  if x = v then some (some b) else lookupA A x

/-- A literal is satisfied under A extended with v := b. -/
def litSatExt (A : Assign) (v : Int) (b : Bool) (lit : Int) : Prop :=
  if 0 < lit then extLookup A v b lit = some (some true)
  else extLookup A v b (iabs lit) = some (some false)

/-- A literal is falsified under A extended with v := b. -/
def litFalsExt (A : Assign) (v : Int) (b : Bool) (lit : Int) : Prop :=
  if 0 < lit then extLookup A v b lit = some (some false)
  else extLookup A v b (iabs lit) = some (some true)

/-- The variable v occurs positively in the formula. -/
def occursPos (v : Int) (F : List (List Int)) : Prop := ∃ c ∈ F, v ∈ c

/-- The variable v occurs negatively in the formula. -/
def occursNeg (v : Int) (F : List (List Int)) : Prop := ∃ c ∈ F, -v ∈ c

/-! ## Brute-force truth-table reference semantics -/

/-- Variables of a formula (absolute values of its literals, deduplicated). -/
def formulaVars (F : List (List Int)) : List Int := (F.flatten.map iabs).dedup

/-- All total boolean environments over a list of variables. -/
def envs : List Int → List (List (Int × Bool))
  | [] => [[]]
  | v :: vs =>
    ((envs vs).map fun e => (v, true) :: e) ++ ((envs vs).map fun e => (v, false) :: e)

/-- Value of a variable in an environment (false if absent; the enumeration
covers every variable of the formula). -/
def lookupEnv : List (Int × Bool) → Int → Bool
  | [], _ => false
  | (k, b) :: rest, x => if k = x then b else lookupEnv rest x

/-- Truth value of a literal in a total environment. -/
def evalLit (e : List (Int × Bool)) (lit : Int) : Bool :=
  if 0 < lit then lookupEnv e lit else !(lookupEnv e (iabs lit))

/-- Truth value of a CNF formula in a total environment. -/
def evalFormula (e : List (Int × Bool)) (F : List (List Int)) : Bool :=
  F.all fun c => c.any (evalLit e)

/-- Brute-force truth-table satisfiability of a formula. -/
def bruteForceSat (F : List (List Int)) : Bool :=
  (envs (formulaVars F)).any fun e => evalFormula e F

/-! ## Invariants used by the run-level proofs -/

/-- Well-formedness of an assignment table: no duplicate keys (HashMap keys
are unique by construction). -/
def KeysNodupA (A : Assign) : Prop := (A.map Prod.fst).Nodup

/-- Number of variables still Unknown in an assignment. -/
def unknownCount (A : Assign) : Nat := (A.filter fun p => p.2.isNone).length

/-- Worst-case number of node expansions needed to exhaust the subtree of a
pending non-root node with u Unknown variables is 2 ^ u - 1; the potential
of a task stack is the sum over its nodes. -/
def stackPot (tl : List Node) : Nat :=
  (tl.map fun n => 2 ^ unknownCount n.assignment - 1).sum

/-- Invariant of every non-root node the driver ever creates: well-formed
assignment with nonzero keys covering the variables of the node formula, a
real decided variable that is still Unknown in the pre-decision assignment,
and a committed decided value. -/
def GoodNode (n : Node) : Prop :=
  KeysNodupA n.assignment ∧
  (∀ p ∈ n.assignment, p.1 ≠ 0) ∧
  n.var ≠ 0 ∧
  lookupA n.assignment n.var = some none ∧
  (∃ b, n.value = some b) ∧
  (∀ c ∈ n.formula, ∀ lit ∈ c, containsA n.assignment (iabs lit) = true)

/-- Every pending node of a task stack satisfies the node invariant. -/
def GoodStack (tl : List Node) : Prop := ∀ n ∈ tl, GoodNode n

/-- Soundness invariant of a node relative to the original formula F0:
every original clause is either still present in the node formula or
already satisfied by the pre-decision assignment, the assignment covers the
variables of F0, and a non-root node decides a still-Unknown variable with
a committed value. -/
def SoundNode (F0 : List (List Int)) (n : Node) : Prop :=
  KeysNodupA n.assignment ∧
  (∀ c ∈ F0, c ∈ n.formula ∨ clauseSatA n.assignment c) ∧
  (∀ c ∈ F0, ∀ lit ∈ c, containsA n.assignment (iabs lit) = true) ∧
  (∀ c ∈ n.formula, ∀ lit ∈ c, containsA n.assignment (iabs lit) = true) ∧
  (n.var = 0 ∨ (lookupA n.assignment n.var = some none ∧ ∃ b, n.value = some b))

/-- Soundness invariant for a whole task stack. -/
def SoundStack (F0 : List (List Int)) (tl : List Node) : Prop :=
  ∀ n ∈ tl, SoundNode F0 n

/-- What the emitted assignment of a SATISFIABLE verdict must satisfy:
every clause of the original formula has a literal true under it, and every
variable of the original formula is mapped to True or False. -/
def SolOK (F0 : List (List Int)) (sol : Assign) : Prop :=
  (∀ c ∈ F0, ∃ lit ∈ c, litTrueUnder sol lit) ∧
  (∀ c ∈ F0, ∀ lit ∈ c, ∃ x, lookupA sol (iabs lit) = some (some x))

/-- Well-formedness of a boolean map: no duplicate keys. -/
def KeysNodupB (m : BMap) : Prop := (m.map Prod.fst).Nodup

/-- Invariant of the pure-literal scan after processing the literal list P:
the candidate map holds exactly the variables seen with a single polarity so
far (with the polarity as value), and the eviction map holds exactly the
variables seen with both polarities. -/
def PLInv (P : List Int) (st : PLState) : Prop :=
  KeysNodupB st.pureL ∧
  ∀ v : Int, 0 < v →
    (lookupB st.pureL v = if v ∈ P ∧ -v ∉ P then some true else none) ∧
    (lookupB st.pureL (-v) = if -v ∈ P ∧ v ∉ P then some false else none) ∧
    (containsB st.removedL v = true ↔ (v ∈ P ∧ -v ∈ P)) ∧
    (containsB st.removedL (-v) = true ↔ (v ∈ P ∧ -v ∈ P))

/-! ## Sanity checks on concrete inputs (traced against the Rust code) -/

example : run_solver 1 [[1]] = .panicked := by decide

example : run_solver 3 [[1], [-1]] = .unsat := by decide

example : run_solver 2 [[1], [-1]] = .outOfFuel := by decide

example : bruteForceSat [[1]] = true := by decide

example : bruteForceSat [[1], [-1]] = false := by decide

example :
    pure_literal_elimination [[1, 2], [2, 3], [-4, -2, 3], [-1, -2, 3], [-4, 2, 3]]
      (initial_assignment [[1, 2], [2, 3], [-4, -2, 3], [-1, -2, 3], [-4, 2, 3]]) =
    ([[1, 2]], [(1, none), (2, none), (3, some true), (4, some false)]) := by decide

example :
    false_check ⟨[[1, 2], [2, 3], [-4, -2, 3], [-1, -2, 3], [-4, 2, 3]], some false, 1,
      [(1, none), (2, some true), (3, some false), (4, some false)]⟩ = 2 := by decide

example : get_assignment_keys [(4, some false), (2, none), (1, none), (3, none)] = [1, 2, 3] := by
  decide

example : run_solver 4 [[1, 2], [-1, -2]] = .sat [(1, some true), (2, some false)] := by decide

/-! ## Association-list map lemmas -/

theorem lookupA_insertA (A : Assign) (k x : Int) (w : Option Bool) :
    lookupA (insertA A k w) x = if x = k then some w else lookupA A x := by
  induction A with
  | nil =>
    by_cases hx : x = k
    · simp [insertA, lookupA, hx]
    · simp [insertA, lookupA, hx, Ne.symm hx]
  | cons p rest ih =>
    obtain ⟨k0, w0⟩ := p
    by_cases hk : k0 = k
    · subst hk
      by_cases hx : x = k0
      · subst hx; simp [insertA, lookupA]
      · simp [insertA, lookupA, hx, Ne.symm hx]
    · by_cases hx : k0 = x
      · subst hx
        have hxk : ¬ k0 = k := hk
        simp [insertA, lookupA, hk, hxk]
      · simp [insertA, lookupA, hk, hx, ih]

theorem mem_of_lookupA {A : Assign} {k : Int} {w : Option Bool}
    (h : lookupA A k = some w) : (k, w) ∈ A := by
  induction A with
  | nil => simp [lookupA] at h
  | cons p rest ih =>
    obtain ⟨k0, w0⟩ := p
    by_cases hk : k0 = k
    · subst hk
      simp [lookupA] at h
      subst h; exact List.mem_cons_self _ _
    · simp only [lookupA, if_neg hk] at h
      exact List.mem_cons_of_mem _ (ih h)

theorem containsA_iff_mem_keys {A : Assign} {k : Int} :
    containsA A k = true ↔ k ∈ A.map Prod.fst := by
  induction A with
  | nil => simp [containsA, lookupA]
  | cons p rest ih =>
    obtain ⟨k0, w0⟩ := p
    by_cases hk : k0 = k
    · subst hk; simp [containsA, lookupA]
    · simp [containsA, lookupA, hk, Ne.symm hk] at ih ⊢
      exact ih

theorem lookupA_of_mem_nodup {A : Assign} {k : Int} {w : Option Bool}
    (hn : KeysNodupA A) (h : (k, w) ∈ A) : lookupA A k = some w := by
  induction A with
  | nil => simp at h
  | cons p rest ih =>
    obtain ⟨k0, w0⟩ := p
    simp only [KeysNodupA, List.map_cons, List.nodup_cons] at hn
    rcases List.mem_cons.1 h with h1 | h1
    · obtain ⟨hk, hw⟩ := Prod.mk.injEq .. ▸ h1
      subst hk; subst hw; simp [lookupA]
    · have hne : k0 ≠ k := by
        rintro rfl
        exact hn.1 (List.mem_map.2 ⟨(k0, w), h1, rfl⟩)
      simp only [lookupA, if_neg hne]
      exact ih hn.2 h1

theorem keys_insertA (A : Assign) (k : Int) (w : Option Bool) :
    (insertA A k w).map Prod.fst =
      if containsA A k then A.map Prod.fst else A.map Prod.fst ++ [k] := by
  induction A with
  | nil => simp [insertA, containsA, lookupA]
  | cons p rest ih =>
    obtain ⟨k0, w0⟩ := p
    by_cases hk : k0 = k
    · subst hk; simp [insertA, containsA, lookupA]
    · have hcc : containsA ((k0, w0) :: rest) k = containsA rest k := by
        simp [containsA, lookupA, hk]
      rw [hcc]
      simp only [insertA, if_neg hk, List.map_cons, ih]
      by_cases hc : containsA rest k = true
      · simp [hc]
      · simp [hc]

theorem keysNodup_insertA {A : Assign} (k : Int) (w : Option Bool)
    (hn : KeysNodupA A) : KeysNodupA (insertA A k w) := by
  unfold KeysNodupA
  rw [keys_insertA]
  by_cases hc : containsA A k
  · simpa [hc] using hn
  · simp only [hc, if_neg]
    rw [if_neg (by simp [hc])]
    refine List.Nodup.append hn (List.nodup_singleton k) ?_
    intro x hx hx1
    simp at hx1
    subst hx1
    exact absurd (containsA_iff_mem_keys.2 hx) (by simp [hc])

theorem keyPred_insertA {A : Assign} {P : Int → Prop} {k : Int} {w : Option Bool}
    (hA : ∀ p ∈ A, P p.1) (hk : P k) : ∀ p ∈ insertA A k w, P p.1 := by
  induction A with
  | nil => simpa [insertA] using hk
  | cons q rest ih =>
    obtain ⟨k0, w0⟩ := q
    by_cases h0 : k0 = k
    · subst h0
      simp only [insertA, if_pos rfl]
      intro p hp
      rcases List.mem_cons.1 hp with h | h
      · subst h; exact hk
      · exact hA p (List.mem_cons_of_mem _ h)
    · simp only [insertA, if_neg h0]
      intro p hp
      rcases List.mem_cons.1 hp with h | h
      · subst h; exact hA (k0, w0) (List.mem_cons_self _ _)
      · exact ih (fun q hq => hA q (List.mem_cons_of_mem _ hq)) p h

theorem lookupA_defaultTrue (A : Assign) (x : Int) :
    lookupA (defaultTrue A) x =
      match lookupA A x with
      | none => none
      | some w => some (if w.isNone then some true else w) := by
  induction A with
  | nil => simp [defaultTrue, lookupA]
  | cons p rest ih =>
    obtain ⟨k0, w0⟩ := p
    by_cases hk : k0 = x
    · subst hk; simp [defaultTrue, lookupA]
    · simp [defaultTrue, lookupA, hk, ih]

/-! ## Sorting lemmas -/

theorem mem_insortInt {y x : Int} {l : List Int} :
    y ∈ insortInt x l ↔ y = x ∨ y ∈ l := by
  induction l with
  | nil => simp [insortInt]
  | cons z zs ih =>
    by_cases h : x ≤ z
    · simp [insortInt, h]
    · simp [insortInt, h, ih]
      tauto

theorem mem_sortInts {y : Int} {l : List Int} : y ∈ sortInts l ↔ y ∈ l := by
  induction l with
  | nil => simp [sortInts]
  | cons z zs ih => simp [sortInts, mem_insortInt, ih]

theorem pairwise_insortInt {x : Int} {l : List Int}
    (h : l.Pairwise (· ≤ ·)) : (insortInt x l).Pairwise (· ≤ ·) := by
  induction l with
  | nil => simp [insortInt]
  | cons z zs ih =>
    rcases List.pairwise_cons.1 h with ⟨hz, hzs⟩
    by_cases hle : x ≤ z
    · simp only [insortInt, if_pos hle]
      refine List.pairwise_cons.2 ⟨?_, h⟩
      intro y hy
      rcases List.mem_cons.1 hy with h1 | h1
      · exact h1 ▸ hle
      · exact le_trans hle (hz y h1)
    · simp only [insortInt, if_neg hle]
      refine List.pairwise_cons.2 ⟨?_, ih hzs⟩
      intro y hy
      rcases mem_insortInt.1 hy with h1 | h1
      · exact h1 ▸ le_of_lt (lt_of_not_le hle)
      · exact hz y h1

theorem pairwise_sortInts (l : List Int) : (sortInts l).Pairwise (· ≤ ·) := by
  induction l with
  | nil => simp [sortInts]
  | cons z zs ih => exact pairwise_insortInt ih

theorem length_insortInt (x : Int) (l : List Int) :
    (insortInt x l).length = l.length + 1 := by
  induction l with
  | nil => simp [insortInt]
  | cons z zs ih =>
    by_cases h : x ≤ z
    · simp [insortInt, h]
    · simp [insortInt, h, ih]

theorem length_sortInts (l : List Int) : (sortInts l).length = l.length := by
  induction l with
  | nil => simp [sortInts]
  | cons z zs ih => simp [sortInts, length_insortInt, ih]

/-! ## get_assignment_keys lemmas -/

theorem mem_get_assignment_keys {A : Assign} {d : Int} :
    d ∈ get_assignment_keys A ↔ (d, none) ∈ A := by
  unfold get_assignment_keys
  rw [mem_sortInts]
  constructor
  · intro h
    rcases List.mem_map.1 h with ⟨⟨k, w⟩, hk, hfst⟩
    rcases List.mem_filter.1 hk with ⟨hmem, hnone⟩
    have : w = none := by simpa [Option.isNone_iff_eq_none] using hnone
    subst this
    exact (show k = d from hfst) ▸ hmem
  · intro h
    exact List.mem_map.2 ⟨(d, none), List.mem_filter.2 ⟨h, by simp⟩, rfl⟩

theorem lookupA_of_mem_gak {A : Assign} {d : Int}
    (hn : KeysNodupA A) (h : d ∈ get_assignment_keys A) :
    lookupA A d = some none :=
  lookupA_of_mem_nodup hn (mem_get_assignment_keys.1 h)

theorem mem_gak_of_lookupA {A : Assign} {d : Int}
    (h : lookupA A d = some none) : d ∈ get_assignment_keys A :=
  mem_get_assignment_keys.2 (mem_of_lookupA h)

theorem gak_head_min {A : Assign} {d : Int} {ds : List Int}
    (h : get_assignment_keys A = d :: ds) :
    ∀ y ∈ get_assignment_keys A, d ≤ y := by
  intro y hy
  have hp := pairwise_sortInts ((A.filter fun p => p.2.isNone).map Prod.fst)
  rw [show sortInts ((A.filter fun p => p.2.isNone).map Prod.fst) = get_assignment_keys A from rfl,
    h] at hp
  rw [h] at hy
  rcases List.mem_cons.1 hy with h1 | h1
  · exact h1 ▸ le_refl d
  · exact (List.pairwise_cons.1 hp).1 y h1

theorem length_gak (A : Assign) : (get_assignment_keys A).length = unknownCount A := by
  unfold get_assignment_keys unknownCount
  rw [length_sortInts, List.length_map]

theorem unknownCount_pos {A : Assign} {v : Int}
    (h : lookupA A v = some none) : 1 ≤ unknownCount A := by
  have hm : (v, none) ∈ A := mem_of_lookupA h
  have : (v, none) ∈ A.filter fun p => p.2.isNone :=
    List.mem_filter.2 ⟨hm, by simp⟩
  unfold unknownCount
  exact List.length_pos.2 (fun he => by simp [he] at this)

theorem gak_ne_nil {A : Assign} {v : Int}
    (h : lookupA A v = some none) : get_assignment_keys A ≠ [] := by
  intro he
  exact absurd (mem_gak_of_lookupA h) (by simp [he])

theorem unknownCount_insertA_some {A : Assign} {v : Int} (b : Bool)
    (h : lookupA A v = some none) :
    unknownCount (insertA A v (some b)) + 1 = unknownCount A := by
  induction A with
  | nil => simp [lookupA] at h
  | cons p rest ih =>
    obtain ⟨k0, w0⟩ := p
    by_cases hk : k0 = v
    · subst hk
      simp [lookupA] at h
      subst h
      simp [insertA, unknownCount, List.filter_cons]
    · simp only [lookupA, if_neg hk] at h
      have ih2 := ih h
      unfold unknownCount at ih2 ⊢
      simp only [insertA, if_neg hk]
      cases hw : w0.isNone <;> simp [List.filter_cons, hw] <;> omega

/-! ## iabs helpers -/

theorem iabs_eq_of_neg_lit {lit v : Int} (hv : 0 < v) (h : lit = -v) : iabs lit = v := by
  subst h; unfold iabs
  rw [if_pos (by omega)]
  omega

theorem iabs_ne_of_ne {lit v : Int} (hpos : ¬ 0 < lit) (hne : ¬ lit = -v) (hv : ¬ v = 0) :
    ¬ iabs lit = v := by
  unfold iabs
  by_cases h : lit < 0 <;> simp [h] <;> omega

theorem iabs_pos_eq {lit : Int} (h : 0 < lit) : iabs lit = lit := by
  unfold iabs; rw [if_neg (by omega)]

/-! ## classifyLit against the extended-assignment semantics -/

theorem classifyLit_sat_iff {v : Int} {b : Bool} {A : Assign} {lit : Int} (hv : 0 < v) :
    classifyLit v (some b) A lit = .sat ↔ litSatExt A v b lit := by
  by_cases hpos : 0 < lit
  · by_cases hlv : lit = v
    · subst hlv
      cases b <;> simp [classifyLit, litSatExt, extLookup, hpos]
    · cases hA : lookupA A lit with
      | none => simp [classifyLit, litSatExt, extLookup, hpos, hlv, hA]
      | some w =>
        cases w with
        | none => simp [classifyLit, litSatExt, extLookup, hpos, hlv, hA]
        | some bb => cases bb <;> simp [classifyLit, litSatExt, extLookup, hpos, hlv, hA]
  · by_cases hlv : lit = -v
    · subst hlv
      have h1 : ¬ (0 < -v) := by omega
      have h3 : iabs (-v) = v := iabs_eq_of_neg_lit hv rfl
      cases b <;> simp [classifyLit, litSatExt, extLookup, h1, h3]
    · have habs : ¬ iabs lit = v := iabs_ne_of_ne hpos hlv (by omega)
      cases hA : lookupA A (iabs lit) with
      | none => simp [classifyLit, litSatExt, extLookup, hpos, hlv, habs, hA]
      | some w =>
        cases w with
        | none => simp [classifyLit, litSatExt, extLookup, hpos, hlv, habs, hA]
        | some bb => cases bb <;> simp [classifyLit, litSatExt, extLookup, hpos, hlv, habs, hA]

theorem classifyLit_fals_iff {v : Int} {b : Bool} {A : Assign} {lit : Int} (hv : 0 < v) :
    classifyLit v (some b) A lit = .fals ↔ litFalsExt A v b lit := by
  by_cases hpos : 0 < lit
  · by_cases hlv : lit = v
    · subst hlv
      cases b <;> simp [classifyLit, litFalsExt, extLookup, hpos]
    · cases hA : lookupA A lit with
      | none => simp [classifyLit, litFalsExt, extLookup, hpos, hlv, hA]
      | some w =>
        cases w with
        | none => simp [classifyLit, litFalsExt, extLookup, hpos, hlv, hA]
        | some bb => cases bb <;> simp [classifyLit, litFalsExt, extLookup, hpos, hlv, hA]
  · by_cases hlv : lit = -v
    · subst hlv
      have h1 : ¬ (0 < -v) := by omega
      have h3 : iabs (-v) = v := iabs_eq_of_neg_lit hv rfl
      cases b <;> simp [classifyLit, litFalsExt, extLookup, h1, h3]
    · have habs : ¬ iabs lit = v := iabs_ne_of_ne hpos hlv (by omega)
      cases hA : lookupA A (iabs lit) with
      | none => simp [classifyLit, litFalsExt, extLookup, hpos, hlv, habs, hA]
      | some w =>
        cases w with
        | none => simp [classifyLit, litFalsExt, extLookup, hpos, hlv, habs, hA]
        | some bb => cases bb <;> simp [classifyLit, litFalsExt, extLookup, hpos, hlv, habs, hA]

/-! ## scanClause and checkClauses characterization -/

theorem scanClause_spec (v : Int) (val : Option Bool) (A : Assign) (c : List Int) :
    (scanClause v val A c).2.1 ≤ (scanClause v val A c).2.2 ∧
    ((scanClause v val A c).1 = true ↔ ∃ lit ∈ c, classifyLit v val A lit = .sat) ∧
    ((scanClause v val A c).2.1 = (scanClause v val A c).2.2 ↔
      ∀ lit ∈ c, classifyLit v val A lit = .fals) := by
  induction c with
  | nil => simp [scanClause]
  | cons lit rest ih =>
    obtain ⟨ihle, ihflag, ihcnt⟩ := ih
    cases hcl : classifyLit v val A lit with
    | sat =>
      refine ⟨by simp [scanClause, hcl], ?_, ?_⟩
      · simp only [scanClause, hcl]
        simp only [true_iff]
        exact ⟨lit, List.mem_cons_self _ _, hcl⟩
      · simp only [scanClause, hcl]
        constructor
        · intro h; cases h
        · intro hall
          have := hall lit (List.mem_cons_self _ _)
          rw [hcl] at this
          cases this
    | fals =>
      refine ⟨?_, ?_, ?_⟩
      · simp only [scanClause, hcl]
        omega
      · simp only [scanClause, hcl]
        rw [ihflag]
        constructor
        · intro ⟨l, hl, hc⟩; exact ⟨l, List.mem_cons_of_mem _ hl, hc⟩
        · rintro ⟨l, hl, hc⟩
          rcases List.mem_cons.1 hl with h1 | h1
          · subst h1; rw [hcl] at hc; cases hc
          · exact ⟨l, h1, hc⟩
      · simp only [scanClause, hcl]
        constructor
        · intro h
          have : (scanClause v val A rest).2.1 = (scanClause v val A rest).2.2 := by omega
          intro l hl
          rcases List.mem_cons.1 hl with h1 | h1
          · subst h1; exact hcl
          · exact (ihcnt.1 this) l h1
        · intro hall
          have : (scanClause v val A rest).2.1 = (scanClause v val A rest).2.2 :=
            ihcnt.2 (fun l hl => hall l (List.mem_cons_of_mem _ hl))
          omega
    | skip =>
      refine ⟨?_, ?_, ?_⟩
      · simp only [scanClause, hcl]
        omega
      · simp only [scanClause, hcl]
        rw [ihflag]
        constructor
        · intro ⟨l, hl, hc⟩; exact ⟨l, List.mem_cons_of_mem _ hl, hc⟩
        · rintro ⟨l, hl, hc⟩
          rcases List.mem_cons.1 hl with h1 | h1
          · subst h1; rw [hcl] at hc; cases hc
          · exact ⟨l, h1, hc⟩
      · simp only [scanClause, hcl]
        constructor
        · intro h; omega
        · intro hall
          have := hall lit (List.mem_cons_self _ _)
          rw [hcl] at this
          cases this

theorem checkClauses_none_iff (v : Int) (val : Option Bool) (A : Assign) :
    ∀ (cls : List (List Int)) (tn : Nat),
      checkClauses v val A cls tn = none ↔
        ∃ c ∈ cls, ∀ lit ∈ c, classifyLit v val A lit = .fals := by
  intro cls
  induction cls with
  | nil => intro tn; simp [checkClauses]
  | cons c rest ih =>
    intro tn
    obtain ⟨hle, hflag, hcnt⟩ := scanClause_spec v val A c
    by_cases hc : (scanClause v val A c).2.1 = (scanClause v val A c).2.2
    · simp only [checkClauses, if_pos hc]
      constructor
      · intro _
        exact ⟨c, List.mem_cons_self _ _, hcnt.1 hc⟩
      · intro _; trivial
    · simp only [checkClauses, if_neg hc]
      rw [ih]
      constructor
      · rintro ⟨d, hd, hall⟩; exact ⟨d, List.mem_cons_of_mem _ hd, hall⟩
      · rintro ⟨d, hd, hall⟩
        rcases List.mem_cons.1 hd with h1 | h1
        · subst h1; exact absurd (hcnt.2 hall) hc
        · exact ⟨d, h1, hall⟩

theorem checkClauses_some_spec (v : Int) (val : Option Bool) (A : Assign) :
    ∀ (cls : List (List Int)) (tn m : Nat),
      checkClauses v val A cls tn = some m →
        tn ≤ m ∧ m ≤ tn + cls.length ∧
        (m = tn + cls.length ↔ ∀ c ∈ cls, ∃ lit ∈ c, classifyLit v val A lit = .sat) := by
  intro cls
  induction cls with
  | nil =>
    intro tn m h
    simp [checkClauses] at h
    subst h
    simp
  | cons c rest ih =>
    intro tn m h
    obtain ⟨hle, hflag, hcnt⟩ := scanClause_spec v val A c
    by_cases hc : (scanClause v val A c).2.1 = (scanClause v val A c).2.2
    · simp [checkClauses, if_pos hc] at h
    · simp only [checkClauses, if_neg hc] at h
      by_cases hf : (scanClause v val A c).1 = true
      · rw [if_pos hf] at h
        obtain ⟨h1, h2, h3⟩ := ih (tn + 1) m h
        refine ⟨by omega, by simp [List.length_cons]; omega, ?_⟩
        constructor
        · intro hm
          intro d hd
          rcases List.mem_cons.1 hd with he | he
          · subst he; exact hflag.1 hf
          · exact (h3.1 (by simp [List.length_cons] at hm; omega)) d he
        · intro hall
          have : m = tn + 1 + rest.length :=
            h3.2 (fun d hd => hall d (List.mem_cons_of_mem _ hd))
          simp [List.length_cons]; omega
      · rw [if_neg hf] at h
        obtain ⟨h1, h2, h3⟩ := ih tn m h
        refine ⟨h1, by simp [List.length_cons]; omega, ?_⟩
        constructor
        · intro hm
          exfalso
          have : m ≤ tn + rest.length := h2
          simp [List.length_cons] at hm
          omega
        · intro hall
          exfalso
          exact hf (hflag.2 (hall c (List.mem_cons_self _ _)))

theorem false_check_eq_zero_iff (n : Node) :
    false_check n = 0 ↔
      ∃ c ∈ n.formula, ∀ lit ∈ c, classifyLit n.var n.value n.assignment lit = .fals := by
  unfold false_check
  cases h : checkClauses n.var n.value n.assignment n.formula 0 with
  | none =>
    simp only [true_iff]
    exact (checkClauses_none_iff n.var n.value n.assignment n.formula 0).1 h
  | some m =>
    have hnone := (checkClauses_none_iff n.var n.value n.assignment n.formula 0)
    rw [h] at hnone
    simp only [reduceCtorEq, false_iff] at hnone
    by_cases hm : m = n.formula.length <;> simp [hm, hnone]

theorem false_check_eq_two_iff (n : Node) :
    false_check n = 2 ↔
      ∀ c ∈ n.formula, ∃ lit ∈ c, classifyLit n.var n.value n.assignment lit = .sat := by
  unfold false_check
  cases h : checkClauses n.var n.value n.assignment n.formula 0 with
  | none =>
    simp only [reduceCtorEq]
    rcases (checkClauses_none_iff n.var n.value n.assignment n.formula 0).1 h with ⟨c, hc, hall⟩
    constructor
    · intro h0; cases h0
    · intro hall2
      rcases hall2 c hc with ⟨lit, hlit, hsat⟩
      have := hall lit hlit
      rw [hsat] at this
      cases this
  | some m =>
    obtain ⟨h1, h2, h3⟩ := checkClauses_some_spec n.var n.value n.assignment n.formula 0 m h
    rw [Nat.zero_add] at h3
    show (if m = n.formula.length then (2 : Int) else 1) = 2 ↔ _
    by_cases hm : m = n.formula.length
    · rw [if_pos hm]
      exact ⟨fun _ => h3.1 hm, fun _ => rfl⟩
    · simp only [if_neg hm]
      constructor
      · intro hx; cases hx
      · intro hall; exact absurd (h3.2 hall) hm

theorem false_check_cases (n : Node) :
    false_check n = 0 ∨ false_check n = 1 ∨ false_check n = 2 := by
  unfold false_check
  cases h : checkClauses n.var n.value n.assignment n.formula 0 with
  | none => exact Or.inl rfl
  | some m => by_cases hm : m = n.formula.length <;> simp [hm]

/-! ## Claim C3: tri-state node evaluation -/

/-- C3. Tri-state node evaluation: for every non-root node (decided variable
v > 0, decided value b, assignment A with v Unknown), false_check returns
CONFLICT (0) iff some clause has every literal falsified under A extended
with v = b, SOLUTION (2) iff every clause has at least one literal satisfied
under that extended assignment, and UNDETERMINED (1) otherwise. -/
theorem false_check_tristate (n : Node) (b : Bool)
    (hval : n.value = some b) (hv : 0 < n.var)
    (_hunk : lookupA n.assignment n.var = some none) :
    (false_check n = 0 ↔
      ∃ c ∈ n.formula, ∀ lit ∈ c, litFalsExt n.assignment n.var b lit) ∧
    (false_check n = 2 ↔
      ∀ c ∈ n.formula, ∃ lit ∈ c, litSatExt n.assignment n.var b lit) ∧
    (false_check n = 1 ↔
      ¬ (∃ c ∈ n.formula, ∀ lit ∈ c, litFalsExt n.assignment n.var b lit) ∧
      ¬ (∀ c ∈ n.formula, ∃ lit ∈ c, litSatExt n.assignment n.var b lit)) := by
  have hz := false_check_eq_zero_iff n
  have ht := false_check_eq_two_iff n
  rw [hval] at hz ht
  have hz2 : false_check n = 0 ↔
      ∃ c ∈ n.formula, ∀ lit ∈ c, litFalsExt n.assignment n.var b lit := by
    rw [hz]
    constructor
    · rintro ⟨c, hc, hall⟩
      exact ⟨c, hc, fun l hl => (classifyLit_fals_iff hv).1 (hall l hl)⟩
    · rintro ⟨c, hc, hall⟩
      exact ⟨c, hc, fun l hl => (classifyLit_fals_iff hv).2 (hall l hl)⟩
  have ht2 : false_check n = 2 ↔
      ∀ c ∈ n.formula, ∃ lit ∈ c, litSatExt n.assignment n.var b lit := by
    rw [ht]
    constructor
    · intro hall c hc
      rcases hall c hc with ⟨l, hl, hs⟩
      exact ⟨l, hl, (classifyLit_sat_iff hv).1 hs⟩
    · intro hall c hc
      rcases hall c hc with ⟨l, hl, hs⟩
      exact ⟨l, hl, (classifyLit_sat_iff hv).2 hs⟩
  refine ⟨hz2, ht2, ?_⟩
  rcases false_check_cases n with h | h | h
  · rw [h]
    constructor
    · intro h01; exact absurd h01 (by norm_num)
    · rintro ⟨hnA, _⟩; exact absurd (hz2.1 h) hnA
  · rw [h]
    constructor
    · intro _
      constructor
      · intro hA
        have := hz2.2 hA
        rw [h] at this
        exact absurd this (by norm_num)
      · intro hB
        have := ht2.2 hB
        rw [h] at this
        exact absurd this (by norm_num)
    · intro _; rfl
  · rw [h]
    constructor
    · intro h21; exact absurd h21 (by norm_num)
    · rintro ⟨_, hnB⟩; exact absurd (ht2.1 h) hnB

/-- Witness for C3 at a concrete node. -/
theorem false_check_tristate_witness :
    (false_check ⟨[[1, 2], [-1, 3]], some true, 1, [(1, none), (2, none), (3, none)]⟩ = 0 ↔
      ∃ c ∈ [[1, 2], [-1, 3]], ∀ lit ∈ c,
        litFalsExt [(1, none), (2, none), (3, none)] 1 true lit) ∧
    (false_check ⟨[[1, 2], [-1, 3]], some true, 1, [(1, none), (2, none), (3, none)]⟩ = 2 ↔
      ∀ c ∈ [[1, 2], [-1, 3]], ∃ lit ∈ c,
        litSatExt [(1, none), (2, none), (3, none)] 1 true lit) ∧
    (false_check ⟨[[1, 2], [-1, 3]], some true, 1, [(1, none), (2, none), (3, none)]⟩ = 1 ↔
      ¬ (∃ c ∈ [[1, 2], [-1, 3]], ∀ lit ∈ c,
          litFalsExt [(1, none), (2, none), (3, none)] 1 true lit) ∧
      ¬ (∀ c ∈ [[1, 2], [-1, 3]], ∃ lit ∈ c,
          litSatExt [(1, none), (2, none), (3, none)] 1 true lit)) :=
  false_check_tristate ⟨[[1, 2], [-1, 3]], some true, 1, [(1, none), (2, none), (3, none)]⟩
    true rfl (by decide) (by decide)

/-! ## Claim C5: specification of simplification -/

theorem clauseSatisfiedB_iff {A : Assign} {c : List Int} :
    clauseSatisfiedB A c = true ↔ ∃ lit ∈ c, litTrueUnder A lit := by
  unfold clauseSatisfiedB litTrueUnder
  rw [List.any_eq_true]
  constructor
  · rintro ⟨l, hl, hp⟩
    refine ⟨l, hl, ?_⟩
    by_cases h : 0 < l
    · simpa [h, beq_iff_eq] using hp
    · simpa [h, beq_iff_eq] using hp
  · rintro ⟨l, hl, hp⟩
    refine ⟨l, hl, ?_⟩
    by_cases h : 0 < l
    · simpa [h, beq_iff_eq] using hp
    · simpa [h, beq_iff_eq] using hp

/-- C5. Simplification drops a clause iff it contains a literal true under
the assignment; every kept clause is unchanged and kept clauses appear in
their original relative order (the output is a sublist of the input). -/
theorem simplify_formula_spec (F : List (List Int)) (A : Assign) :
    (simplify_formula F A).Sublist F ∧
    ∀ c, c ∈ simplify_formula F A ↔ (c ∈ F ∧ ¬ ∃ lit ∈ c, litTrueUnder A lit) := by
  refine ⟨List.filter_sublist F, fun c => ?_⟩
  unfold simplify_formula
  rw [List.mem_filter]
  constructor
  · rintro ⟨hmem, hneg⟩
    refine ⟨hmem, fun hex => ?_⟩
    rw [Bool.not_eq_true'] at hneg
    rw [clauseSatisfiedB_iff.2 hex] at hneg
    cases hneg
  · rintro ⟨hmem, hnot⟩
    refine ⟨hmem, ?_⟩
    rw [Bool.not_eq_true']
    cases hs : clauseSatisfiedB A c with
    | false => rfl
    | true => exact absurd (clauseSatisfiedB_iff.1 hs) hnot

/-! ## Claim C9: idempotence of simplification -/

/-- C9. Simplifying an already simplified formula under the same assignment
changes nothing. -/
theorem simplify_formula_idempotent (F : List (List Int)) (A : Assign) :
    simplify_formula (simplify_formula F A) A = simplify_formula F A := by
  unfold simplify_formula
  rw [List.filter_filter]
  have : (fun c => !clauseSatisfiedB A c && !clauseSatisfiedB A c) =
      fun c => !clauseSatisfiedB A c :=
    funext fun c => Bool.and_self _
  rw [this]

/-! ## Claim C10: unterminated clauses are discarded by the parser -/

theorem foldl_lineStep_noZero {ts : List Int} (h : (0 : Int) ∉ ts) :
    ∀ st : List Int × List (List Int), (ts.foldl lineStep st).2 = st.2 := by
  induction ts with
  | nil => intro st; rfl
  | cons t rest ih =>
    intro st
    have ht : ¬ t = 0 := by
      rintro rfl
      exact h (List.mem_cons_self _ _)
    rw [List.foldl_cons]
    rw [ih (fun hm => h (List.mem_cons_of_mem _ hm))]
    simp [lineStep, ht]

/-- C10. A clause is emitted only when a 0 token is read and the literal
accumulator is line-local: tokens at the end of a data line that are not
followed by a 0 on that same line change nothing — they are neither emitted
as a clause nor carried into any following line. -/
theorem read_cnf_unterminated_discarded (pre post : List CnfLine) (ts ts2 : List Int)
    (h : (0 : Int) ∉ ts2) :
    read_cnf_file (pre ++ CnfLine.data (ts ++ ts2) :: post) =
      read_cnf_file (pre ++ CnfLine.data ts :: post) := by
  unfold read_cnf_file
  rw [List.foldl_append, List.foldl_append]
  have hline : ∀ cs, lineClauses cs (CnfLine.data (ts ++ ts2)) =
      lineClauses cs (CnfLine.data ts) := by
    intro cs
    show parseDataLine (ts ++ ts2) cs = parseDataLine ts cs
    unfold parseDataLine
    rw [List.foldl_append]
    exact foldl_lineStep_noZero h _
  rw [List.foldl_cons, List.foldl_cons, hline]

/-- Witness for C10 at concrete lines. -/
theorem read_cnf_unterminated_witness :
    (0 : Int) ∉ [3, 4] ∧
    read_cnf_file [CnfLine.data [1, 0], CnfLine.data ([2, 0] ++ [3, 4]),
        CnfLine.data [5, 0]] =
      read_cnf_file [CnfLine.data [1, 0], CnfLine.data [2, 0], CnfLine.data [5, 0]] :=
  ⟨by decide,
    read_cnf_unterminated_discarded [CnfLine.data [1, 0]] [CnfLine.data [5, 0]]
      [2, 0] [3, 4] (by decide)⟩

/-! ## Claim C2: the solver crashes on a satisfiable input -/

/-- C2 (failing-input evaluation). On the satisfiable one-clause formula
[[1]] the solver panics for every fuel budget — pure-literal elimination
assigns the only variable, the root expansion indexes the empty
unassigned-variable vector, and no verdict is ever produced — while
brute-force enumeration reports SATISFIABLE. -/
theorem solver_crashes_on_satisfiable (fuel : Nat) :
    run_solver (fuel + 1) [[1]] = .panicked ∧ bruteForceSat [[1]] = true :=
  ⟨rfl, rfl⟩

/-! ## Claim C4: the root expansion indexes an empty candidate collection -/

/-- C4 (failing-input evaluation). After pure-literal elimination has
assigned every variable of [[1]], the root node's Unknown-key list is
empty, and expanding the root indexes that empty collection: the Rust code
panics instead of treating the node as solved. -/
theorem root_expansion_panics (fuel : Nat) :
    build_search_tree (fuel + 1) (mkRoot [[1]]) [] = .panicked ∧
    get_assignment_keys (mkRoot [[1]]).assignment = [] ∧
    lookupA (mkRoot [[1]]).assignment 1 = some (some true) :=
  ⟨rfl, rfl, rfl⟩

/-! ## Claim C7: the 2 ^ k expansion bound fails -/

/-- C7 (counterexample). For [[1], [-1]] exactly one variable is Unknown
after preprocessing (k = 1), yet a budget of 2 ^ k = 2 node expansions is
exhausted before the verdict: the run needs 3 expansions (root, true child,
false child). -/
theorem expansion_bound_tight :
    run_solver 2 [[1], [-1]] = .outOfFuel ∧
    run_solver 3 [[1], [-1]] = .unsat ∧
    unknownCount (mkRoot [[1], [-1]]).assignment = 1 := by
  exact ⟨rfl, rfl, rfl⟩

/-! ## Unfolding lemmas for build_search_tree -/

theorem bst_root_panic {n : Node} {tl : List Node} {fuel : Nat}
    (h0 : n.var = 0) (h : get_assignment_keys n.assignment = []) :
    build_search_tree (fuel + 1) n tl = .panicked := by
  simp only [build_search_tree]
  rw [if_pos h0, h]

theorem bst_root_step {n : Node} {tl : List Node} {fuel : Nat} {d : Int} {ds : List Int}
    (h0 : n.var = 0) (h : get_assignment_keys n.assignment = d :: ds) :
    build_search_tree (fuel + 1) n tl =
      build_search_tree fuel ⟨n.formula, some true, d, n.assignment⟩
        (add_task ⟨n.formula, some false, d, n.assignment⟩ tl) := by
  simp only [build_search_tree]
  rw [if_pos h0, h]

theorem bst_conflict {n : Node} {tl : List Node} {fuel : Nat}
    (h0 : ¬ n.var = 0) (h : false_check n = 0) :
    build_search_tree (fuel + 1) n tl = .backtrack fuel tl := by
  simp only [build_search_tree]
  rw [if_neg h0, if_pos h]

theorem bst_solution {n : Node} {tl : List Node} {fuel : Nat}
    (h0 : ¬ n.var = 0) (h : false_check n = 2) :
    build_search_tree (fuel + 1) n tl =
      .solved fuel (defaultTrue (insertA n.assignment n.var n.value)) := by
  simp only [build_search_tree]
  rw [if_neg h0, if_neg (by rw [h]; norm_num), if_pos h]

theorem bst_undet_panic {n : Node} {tl : List Node} {fuel : Nat}
    (h0 : ¬ n.var = 0) (h : false_check n = 1)
    (hk : get_assignment_keys (insertA n.assignment n.var n.value) = []) :
    build_search_tree (fuel + 1) n tl = .panicked := by
  simp only [build_search_tree]
  rw [if_neg h0, if_neg (by rw [h]; norm_num), if_neg (by rw [h]; norm_num), hk]

theorem bst_undet_step {n : Node} {tl : List Node} {fuel : Nat} {d : Int} {ds : List Int}
    (h0 : ¬ n.var = 0) (h : false_check n = 1)
    (hk : get_assignment_keys (insertA n.assignment n.var n.value) = d :: ds) :
    build_search_tree (fuel + 1) n tl =
      build_search_tree fuel
        ⟨simplify_formula n.formula (insertA n.assignment n.var n.value), some true, d,
          insertA n.assignment n.var n.value⟩
        (add_task
          ⟨simplify_formula n.formula (insertA n.assignment n.var n.value), some false, d,
            insertA n.assignment n.var n.value⟩ tl) := by
  simp only [build_search_tree]
  rw [if_neg h0, if_neg (by rw [h]; norm_num), if_neg (by rw [h]; norm_num), hk]

/-! ## Claim C8: deterministic branching order -/

/-- C8. At every branching step the decision variable is the numerically
smallest Unknown variable of the current assignment (the head of the sorted
Unknown-key list is Unknown and minimal among Unknowns), the two children
share one formula and one assignment, the false-valued child is pushed onto
the LIFO task stack, and the true-valued child is explored first by direct
recursion. -/
theorem branching_deterministic :
    (∀ (A : Assign) (d : Int) (ds : List Int), KeysNodupA A →
      get_assignment_keys A = d :: ds →
      lookupA A d = some none ∧ ∀ e, lookupA A e = some none → d ≤ e) ∧
    (∀ (n : Node) (tl : List Node) (fuel : Nat) (d : Int) (ds : List Int),
      n.var = 0 → get_assignment_keys n.assignment = d :: ds →
      build_search_tree (fuel + 1) n tl =
        build_search_tree fuel ⟨n.formula, some true, d, n.assignment⟩
          (add_task ⟨n.formula, some false, d, n.assignment⟩ tl)) ∧
    (∀ (n : Node) (tl : List Node) (fuel : Nat) (d : Int) (ds : List Int),
      ¬ n.var = 0 → false_check n = 1 →
      get_assignment_keys (insertA n.assignment n.var n.value) = d :: ds →
      build_search_tree (fuel + 1) n tl =
        build_search_tree fuel
          ⟨simplify_formula n.formula (insertA n.assignment n.var n.value), some true, d,
            insertA n.assignment n.var n.value⟩
          (add_task
            ⟨simplify_formula n.formula (insertA n.assignment n.var n.value), some false, d,
              insertA n.assignment n.var n.value⟩ tl)) := by
  refine ⟨?_, ?_, ?_⟩
  · intro A d ds hn h
    have hd : d ∈ get_assignment_keys A := by rw [h]; exact List.mem_cons_self _ _
    refine ⟨lookupA_of_mem_gak hn hd, ?_⟩
    intro e he
    exact gak_head_min h e (mem_gak_of_lookupA he)
  · intro n tl fuel d ds h0 h
    exact bst_root_step h0 h
  · intro n tl fuel d ds h0 h hk
    exact bst_undet_step h0 h hk

/-- Witness for C8: with Unknowns 3, 1, 2 the chosen decision variable is 1,
and the root expansion on such an assignment recurses into the true child
with the false child pushed. -/
theorem branching_deterministic_witness :
    lookupA [(3, none), (1, none), (2, none)] 1 = some none ∧
    build_search_tree 2 ⟨[[1, 2]], none, 0, [(3, none), (1, none), (2, none)]⟩ [] =
      build_search_tree 1 ⟨[[1, 2]], some true, 1, [(3, none), (1, none), (2, none)]⟩
        (add_task ⟨[[1, 2]], some false, 1, [(3, none), (1, none), (2, none)]⟩ []) :=
  ⟨(branching_deterministic.1 [(3, none), (1, none), (2, none)] 1 [2, 3]
      (by unfold KeysNodupA; decide) (by decide)).1,
    branching_deterministic.2.1 ⟨[[1, 2]], none, 0, [(3, none), (1, none), (2, none)]⟩
      [] 1 1 [2, 3] rfl (by decide)⟩

/-! ## Boolean-map lemmas for the pure-literal scan -/

theorem iabs_pos {lit : Int} (h : lit ≠ 0) : 0 < iabs lit := by
  unfold iabs; split <;> omega

theorem iabs_cases (lit : Int) : lit = iabs lit ∨ lit = -(iabs lit) := by
  unfold iabs; split <;> omega

theorem lookupB_insertB (m : BMap) (k x : Int) (w : Bool) :
    lookupB (insertB m k w) x = if x = k then some w else lookupB m x := by
  induction m with
  | nil =>
    by_cases hx : x = k
    · simp [insertB, lookupB, hx]
    · simp [insertB, lookupB, hx, Ne.symm hx]
  | cons p rest ih =>
    obtain ⟨k0, w0⟩ := p
    by_cases hk : k0 = k
    · subst hk
      by_cases hx : x = k0
      · subst hx; simp [insertB, lookupB]
      · simp [insertB, lookupB, hx, Ne.symm hx]
    · by_cases hx : k0 = x
      · subst hx
        have hxk : ¬ k0 = k := hk
        simp [insertB, lookupB, hk, hxk]
      · simp [insertB, lookupB, hk, hx, ih]

theorem lookupB_none_of_not_mem_keys {m : BMap} {k : Int}
    (h : k ∉ m.map Prod.fst) : lookupB m k = none := by
  induction m with
  | nil => rfl
  | cons p rest ih =>
    obtain ⟨k0, w0⟩ := p
    simp only [List.map_cons, List.mem_cons] at h
    push_neg at h
    have h1 : ¬ k0 = k := fun he => h.1 he.symm
    simp only [lookupB, if_neg h1]
    exact ih h.2

theorem lookupB_removeB {m : BMap} (hn : KeysNodupB m) (k x : Int) :
    lookupB (removeB m k) x = if x = k then none else lookupB m x := by
  induction m with
  | nil => simp [removeB, lookupB]
  | cons p rest ih =>
    obtain ⟨k0, w0⟩ := p
    simp only [KeysNodupB, List.map_cons, List.nodup_cons] at hn
    by_cases hk : k0 = k
    · subst hk
      simp only [removeB, if_pos rfl]
      by_cases hx : x = k0
      · subst hx
        rw [if_pos rfl]
        exact lookupB_none_of_not_mem_keys hn.1
      · simp [lookupB, hx, Ne.symm hx]
    · simp only [removeB, if_neg hk]
      by_cases hx : x = k0
      · subst hx
        simp [lookupB, hk]
      · have hx2 : ¬ k0 = x := fun he => hx he.symm
        simp only [lookupB, if_neg hx2]
        exact ih hn.2

theorem containsB_iff_mem_keys {m : BMap} {k : Int} :
    containsB m k = true ↔ k ∈ m.map Prod.fst := by
  induction m with
  | nil => simp [containsB, lookupB]
  | cons p rest ih =>
    obtain ⟨k0, w0⟩ := p
    by_cases hk : k0 = k
    · subst hk; simp [containsB, lookupB]
    · simp [containsB, lookupB, hk, Ne.symm hk] at ih ⊢
      exact ih

theorem keys_insertB (m : BMap) (k : Int) (w : Bool) :
    (insertB m k w).map Prod.fst =
      if containsB m k then m.map Prod.fst else m.map Prod.fst ++ [k] := by
  induction m with
  | nil => simp [insertB, containsB, lookupB]
  | cons p rest ih =>
    obtain ⟨k0, w0⟩ := p
    by_cases hk : k0 = k
    · subst hk; simp [insertB, containsB, lookupB]
    · have hcc : containsB ((k0, w0) :: rest) k = containsB rest k := by
        simp [containsB, lookupB, hk]
      rw [hcc]
      simp only [insertB, if_neg hk, List.map_cons, ih]
      by_cases hc : containsB rest k = true
      · simp [hc]
      · simp [hc]

theorem keysNodupB_insertB {m : BMap} (k : Int) (w : Bool)
    (hn : KeysNodupB m) : KeysNodupB (insertB m k w) := by
  unfold KeysNodupB
  rw [keys_insertB]
  by_cases hc : containsB m k
  · simpa [hc] using hn
  · rw [if_neg (by simp [hc])]
    refine List.Nodup.append hn (List.nodup_singleton k) ?_
    intro x hx hx1
    simp at hx1
    subst hx1
    exact absurd (containsB_iff_mem_keys.2 hx) (by simp [hc])

theorem keys_removeB_sublist (m : BMap) (k : Int) :
    ((removeB m k).map Prod.fst).Sublist (m.map Prod.fst) := by
  induction m with
  | nil => simp [removeB]
  | cons p rest ih =>
    obtain ⟨k0, w0⟩ := p
    by_cases hk : k0 = k
    · subst hk
      simp only [removeB, if_pos rfl, List.map_cons]
      exact (List.sublist_cons_self _ _)
    · simp only [removeB, if_neg hk, List.map_cons]
      exact List.Sublist.cons₂ _ ih

theorem keysNodupB_removeB {m : BMap} (k : Int)
    (hn : KeysNodupB m) : KeysNodupB (removeB m k) :=
  List.Nodup.sublist (keys_removeB_sublist m k) hn

theorem containsB_eq_false_iff {m : BMap} {k : Int} :
    containsB m k = false ↔ lookupB m k = none := by
  unfold containsB
  cases h : lookupB m k <;> simp [h]

/-! ## The pure-literal scan invariant -/

theorem plinv_carry {P : List Int} {st : PLState} {lit : Int}
    (hlitP : lit ∈ P) (hinv : PLInv P st) : PLInv (P ++ [lit]) st := by
  obtain ⟨hnd, hI⟩ := hinv
  refine ⟨hnd, fun v hv => ?_⟩
  obtain ⟨g1, g2, g3, g4⟩ := hI v hv
  have e : ∀ x : Int, x ∈ P ++ [lit] ↔ x ∈ P := by
    intro x
    simp only [List.mem_append, List.mem_singleton]
    constructor
    · rintro (h | rfl)
      · exact h
      · exact hlitP
    · exact Or.inl
  simp only [e]
  exact ⟨g1, g2, g3, g4⟩

theorem if_mem_congr {P : List Int} {lit a b : Int} (ha : ¬ a = lit) (hb : ¬ b = lit)
    {w : Option Bool} :
    (if a ∈ P ++ [lit] ∧ b ∉ P ++ [lit] then w else none) =
    (if a ∈ P ∧ b ∉ P then w else none) := by
  have e1 : a ∈ P ++ [lit] ↔ a ∈ P := by
    simp only [List.mem_append, List.mem_singleton, ha, or_false]
  have e2 : b ∈ P ++ [lit] ↔ b ∈ P := by
    simp only [List.mem_append, List.mem_singleton, hb, or_false]
  by_cases hc : a ∈ P ∧ b ∉ P
  · rw [if_pos hc]
    have hcc : a ∈ P ++ [lit] ∧ b ∉ P ++ [lit] := ⟨e1.2 hc.1, fun hm => hc.2 (e2.1 hm)⟩
    rw [if_pos hcc]
  · rw [if_neg hc]
    have hcc : ¬ (a ∈ P ++ [lit] ∧ b ∉ P ++ [lit]) :=
      fun hc2 => hc ⟨e1.1 hc2.1, fun hm => hc2.2 (e2.2 hm)⟩
    rw [if_neg hcc]

theorem and_mem_congr {P : List Int} {lit a b : Int} (ha : ¬ a = lit) (hb : ¬ b = lit) :
    (a ∈ P ++ [lit] ∧ b ∈ P ++ [lit]) ↔ (a ∈ P ∧ b ∈ P) := by
  simp only [List.mem_append, List.mem_singleton, ha, hb, or_false]

theorem pleStep_inv {P : List Int} {st : PLState} {lit : Int}
    (hnz : lit ≠ 0) (hinv : PLInv P st) : PLInv (P ++ [lit]) (pleStep st lit) := by
  obtain ⟨hnd, hI⟩ := hinv
  have hva : 0 < iabs lit := iabs_pos hnz
  obtain ⟨h1, h2, h3, h4⟩ := hI (iabs lit) hva
  by_cases hrem : containsB st.removedL (iabs lit) = true ∨
      containsB st.removedL (-(iabs lit)) = true
  · -- the variable was evicted earlier: the literal is ignored
    have hboth : iabs lit ∈ P ∧ -(iabs lit) ∈ P := by
      rcases hrem with h | h
      · exact h3.1 h
      · exact h4.1 h
    have hstep : pleStep st lit = st := by
      rcases hrem with h | h <;> simp [pleStep, h]
    rw [hstep]
    have hlitP : lit ∈ P := by
      rcases iabs_cases lit with hl | hl
      · rw [hl]; exact hboth.1
      · rw [hl]; exact hboth.2
    exact plinv_carry hlitP ⟨hnd, hI⟩
  · push_neg at hrem
    have hra : containsB st.removedL (iabs lit) = false := by
      cases h : containsB st.removedL (iabs lit)
      · rfl
      · exact absurd h hrem.1
    have hrb : containsB st.removedL (-(iabs lit)) = false := by
      cases h : containsB st.removedL (-(iabs lit))
      · rfl
      · exact absurd h hrem.2
    have hnboth : ¬ (iabs lit ∈ P ∧ -(iabs lit) ∈ P) := by
      intro hb
      have hh := h3.2 hb
      rw [hra] at hh
      cases hh
    by_cases hfresh : containsB st.pureL (iabs lit) = false ∧
        containsB st.pureL (-(iabs lit)) = false
    · -- first sighting of the variable: record the candidate polarity
      have hstep : pleStep st lit =
          { st with pureL := insertB st.pureL lit (decide (0 < lit)) } := by
        simp [pleStep, hra, hrb, hfresh.1, hfresh.2]
      have hlook1 : lookupB st.pureL (iabs lit) = none := containsB_eq_false_iff.1 hfresh.1
      have hlook2 : lookupB st.pureL (-(iabs lit)) = none := containsB_eq_false_iff.1 hfresh.2
      have hnp1 : ¬ (iabs lit ∈ P ∧ -(iabs lit) ∉ P) := by
        intro hc
        rw [if_pos hc] at h1
        rw [h1] at hlook1
        cases hlook1
      have hnp2 : ¬ (-(iabs lit) ∈ P ∧ iabs lit ∉ P) := by
        intro hc
        rw [if_pos hc] at h2
        rw [h2] at hlook2
        cases hlook2
      have hvaP : iabs lit ∉ P := by
        intro hmem
        by_cases hm2 : -(iabs lit) ∈ P
        · exact hnboth ⟨hmem, hm2⟩
        · exact hnp1 ⟨hmem, hm2⟩
      have hvanP : -(iabs lit) ∉ P := fun hmem => hnp2 ⟨hmem, hvaP⟩
      rw [hstep]
      refine ⟨keysNodupB_insertB _ _ hnd, fun v hv => ?_⟩
      obtain ⟨g1, g2, g3, g4⟩ := hI v hv
      by_cases hveq : v = iabs lit
      · have hvP : v ∉ P := hveq ▸ hvaP
        have hvnP : -v ∉ P := by rw [hveq]; exact hvanP
        rcases iabs_cases lit with hl | hl
        · -- positive literal: v = lit is freshly recorded with polarity true
          have hm1 : v ∈ P ++ [lit] := by
            simp only [List.mem_append, List.mem_singleton]
            right; omega
          have hm2 : -v ∉ P ++ [lit] := by
            simp only [List.mem_append, List.mem_singleton]
            rintro (h | h)
            · exact hvnP h
            · omega
          refine ⟨?_, ?_, ?_, ?_⟩
          · show lookupB (insertB st.pureL lit (decide (0 < lit))) v = _
            have hcc : v ∈ P ++ [lit] ∧ -v ∉ P ++ [lit] := ⟨hm1, hm2⟩
            rw [lookupB_insertB, if_pos (by omega : v = lit), if_pos hcc]
            have hp : (0 : Int) < lit := by omega
            simp [hp]
          · show lookupB (insertB st.pureL lit (decide (0 < lit))) (-v) = _
            rw [lookupB_insertB, if_neg (by omega : ¬ -v = lit)]
            rw [show lookupB st.pureL (-v) = none from by rw [hveq]; exact hlook2]
            rw [if_neg (fun hc => hc.2 hm1)]
          · show containsB st.removedL v = true ↔ _
            rw [show containsB st.removedL v = false from by rw [hveq]; exact hra]
            simp only [Bool.false_eq_true, false_iff]
            rintro ⟨_, hm⟩
            exact hm2 hm
          · show containsB st.removedL (-v) = true ↔ _
            rw [show containsB st.removedL (-v) = false from by rw [hveq]; exact hrb]
            simp only [Bool.false_eq_true, false_iff]
            rintro ⟨_, hm⟩
            exact hm2 hm
        · -- negative literal: -v = lit is freshly recorded with polarity false
          have hm1 : -v ∈ P ++ [lit] := by
            simp only [List.mem_append, List.mem_singleton]
            right; omega
          have hm2 : v ∉ P ++ [lit] := by
            simp only [List.mem_append, List.mem_singleton]
            rintro (h | h)
            · exact hvP h
            · omega
          refine ⟨?_, ?_, ?_, ?_⟩
          · show lookupB (insertB st.pureL lit (decide (0 < lit))) v = _
            rw [lookupB_insertB, if_neg (by omega : ¬ v = lit)]
            rw [show lookupB st.pureL v = none from by rw [hveq]; exact hlook1]
            rw [if_neg (fun hc => hc.2 hm1)]
          · show lookupB (insertB st.pureL lit (decide (0 < lit))) (-v) = _
            have hcc : -v ∈ P ++ [lit] ∧ v ∉ P ++ [lit] := ⟨hm1, hm2⟩
            rw [lookupB_insertB, if_pos (by omega : -v = lit), if_pos hcc]
            have hp : ¬ (0 : Int) < lit := by omega
            simp [hp]
          · show containsB st.removedL v = true ↔ _
            rw [show containsB st.removedL v = false from by rw [hveq]; exact hra]
            simp only [Bool.false_eq_true, false_iff]
            rintro ⟨hm, _⟩
            exact hm2 hm
          · show containsB st.removedL (-v) = true ↔ _
            rw [show containsB st.removedL (-v) = false from by rw [hveq]; exact hrb]
            simp only [Bool.false_eq_true, false_iff]
            rintro ⟨hm, _⟩
            exact hm2 hm
      · -- an unrelated variable is untouched
        have hne1 : ¬ v = lit := by rcases iabs_cases lit with hl | hl <;> omega
        have hne2 : ¬ -v = lit := by rcases iabs_cases lit with hl | hl <;> omega
        refine ⟨?_, ?_, ?_, ?_⟩
        · show lookupB (insertB st.pureL lit (decide (0 < lit))) v = _
          rw [lookupB_insertB, if_neg hne1, g1]
          exact (if_mem_congr hne1 hne2).symm
        · show lookupB (insertB st.pureL lit (decide (0 < lit))) (-v) = _
          rw [lookupB_insertB, if_neg hne2, g2]
          exact (if_mem_congr hne2 hne1).symm
        · show containsB st.removedL v = true ↔ _
          rw [g3]
          exact (and_mem_congr hne1 hne2).symm
        · show containsB st.removedL (-v) = true ↔ _
          rw [g4]
          exact (and_mem_congr hne1 hne2).symm
    · -- the variable already has a recorded candidate polarity
      have hor : containsB st.pureL (iabs lit) = true ∨
          containsB st.pureL (-(iabs lit)) = true := by
        cases ha : containsB st.pureL (iabs lit) with
        | true => exact Or.inl rfl
        | false =>
          cases hb : containsB st.pureL (-(iabs lit)) with
          | true => exact Or.inr rfl
          | false => exact absurd ⟨ha, hb⟩ hfresh
      by_cases hopp : containsB st.pureL (-lit) = true
      · -- opposite polarity sighted: evict the variable
        have hstep : pleStep st lit =
            { pureL := removeB st.pureL (-lit),
              removedL := insertB (insertB st.removedL (iabs lit) false)
                (-(iabs lit)) false } := by
          rcases hor with h | h <;> simp [pleStep, hra, hrb, h, hopp]
        rw [hstep]
        rcases iabs_cases lit with hl | hl
        · -- positive literal: the recorded candidate was the negative polarity
          have hcondP : -(iabs lit) ∈ P ∧ iabs lit ∉ P := by
            by_contra hc
            rw [if_neg hc] at h2
            have hf : containsB st.pureL (-lit) = false := by
              rw [show -lit = -(iabs lit) by omega]
              exact containsB_eq_false_iff.2 h2
            rw [hopp] at hf
            cases hf
          refine ⟨keysNodupB_removeB _ hnd, fun v hv => ?_⟩
          obtain ⟨g1, g2, g3, g4⟩ := hI v hv
          by_cases hveq : v = iabs lit
          · have hvP : v ∉ P := by rw [hveq]; exact hcondP.2
            have hvnP : -v ∈ P := by rw [hveq]; exact hcondP.1
            have hm1 : v ∈ P ++ [lit] := by
              simp only [List.mem_append, List.mem_singleton]
              right; omega
            have hm2 : -v ∈ P ++ [lit] := by
              simp only [List.mem_append, List.mem_singleton]
              left; exact hvnP
            refine ⟨?_, ?_, ?_, ?_⟩
            · show lookupB (removeB st.pureL (-lit)) v = _
              rw [lookupB_removeB hnd, if_neg (by omega : ¬ v = -lit), g1]
              rw [if_neg (fun hc => hvP hc.1), if_neg (fun hc => hc.2 hm2)]
            · show lookupB (removeB st.pureL (-lit)) (-v) = _
              rw [lookupB_removeB hnd, if_pos (by omega : -v = -lit)]
              rw [if_neg (fun hc => hc.2 hm1)]
            · show containsB (insertB (insertB st.removedL (iabs lit) false)
                  (-(iabs lit)) false) v = true ↔ _
              unfold containsB
              rw [lookupB_insertB, if_neg (by omega : ¬ v = -(iabs lit)),
                lookupB_insertB, if_pos (by omega : v = iabs lit)]
              constructor
              · intro _; exact ⟨hm1, hm2⟩
              · intro _; rfl
            · show containsB (insertB (insertB st.removedL (iabs lit) false)
                  (-(iabs lit)) false) (-v) = true ↔ _
              unfold containsB
              rw [lookupB_insertB, if_pos (by omega : -v = -(iabs lit))]
              constructor
              · intro _; exact ⟨hm1, hm2⟩
              · intro _; rfl
          · have hne1 : ¬ v = lit := by omega
            have hne2 : ¬ -v = lit := by omega
            refine ⟨?_, ?_, ?_, ?_⟩
            · show lookupB (removeB st.pureL (-lit)) v = _
              rw [lookupB_removeB hnd, if_neg (by omega : ¬ v = -lit), g1]
              exact (if_mem_congr hne1 hne2).symm
            · show lookupB (removeB st.pureL (-lit)) (-v) = _
              rw [lookupB_removeB hnd, if_neg (by omega : ¬ -v = -lit), g2]
              exact (if_mem_congr hne2 hne1).symm
            · show containsB (insertB (insertB st.removedL (iabs lit) false)
                  (-(iabs lit)) false) v = true ↔ _
              unfold containsB
              rw [lookupB_insertB, if_neg (by omega : ¬ v = -(iabs lit)),
                lookupB_insertB, if_neg (by omega : ¬ v = iabs lit)]
              show containsB st.removedL v = true ↔ _
              rw [g3]
              exact (and_mem_congr hne1 hne2).symm
            · show containsB (insertB (insertB st.removedL (iabs lit) false)
                  (-(iabs lit)) false) (-v) = true ↔ _
              unfold containsB
              rw [lookupB_insertB, if_neg (by omega : ¬ -v = -(iabs lit)),
                lookupB_insertB, if_neg (by omega : ¬ -v = iabs lit)]
              show containsB st.removedL (-v) = true ↔ _
              rw [g4]
              exact (and_mem_congr hne1 hne2).symm
        · -- negative literal: the recorded candidate was the positive polarity
          have hcondP : iabs lit ∈ P ∧ -(iabs lit) ∉ P := by
            by_contra hc
            rw [if_neg hc] at h1
            have hf : containsB st.pureL (-lit) = false := by
              rw [show -lit = iabs lit by omega]
              exact containsB_eq_false_iff.2 h1
            rw [hopp] at hf
            cases hf
          refine ⟨keysNodupB_removeB _ hnd, fun v hv => ?_⟩
          obtain ⟨g1, g2, g3, g4⟩ := hI v hv
          by_cases hveq : v = iabs lit
          · have hvP : v ∈ P := by rw [hveq]; exact hcondP.1
            have hvnP : -v ∉ P := by rw [hveq]; exact hcondP.2
            have hm1 : -v ∈ P ++ [lit] := by
              simp only [List.mem_append, List.mem_singleton]
              right; omega
            have hm2 : v ∈ P ++ [lit] := by
              simp only [List.mem_append, List.mem_singleton]
              left; exact hvP
            refine ⟨?_, ?_, ?_, ?_⟩
            · show lookupB (removeB st.pureL (-lit)) v = _
              rw [lookupB_removeB hnd, if_pos (by omega : v = -lit)]
              rw [if_neg (fun hc => hc.2 hm1)]
            · show lookupB (removeB st.pureL (-lit)) (-v) = _
              rw [lookupB_removeB hnd, if_neg (by omega : ¬ -v = -lit), g2]
              rw [if_neg (fun hc => hvnP hc.1), if_neg (fun hc => hc.2 hm2)]
            · show containsB (insertB (insertB st.removedL (iabs lit) false)
                  (-(iabs lit)) false) v = true ↔ _
              unfold containsB
              rw [lookupB_insertB, if_neg (by omega : ¬ v = -(iabs lit)),
                lookupB_insertB, if_pos (by omega : v = iabs lit)]
              constructor
              · intro _; exact ⟨hm2, hm1⟩
              · intro _; rfl
            · show containsB (insertB (insertB st.removedL (iabs lit) false)
                  (-(iabs lit)) false) (-v) = true ↔ _
              unfold containsB
              rw [lookupB_insertB, if_pos (by omega : -v = -(iabs lit))]
              constructor
              · intro _; exact ⟨hm2, hm1⟩
              · intro _; rfl
          · have hne1 : ¬ v = lit := by omega
            have hne2 : ¬ -v = lit := by omega
            refine ⟨?_, ?_, ?_, ?_⟩
            · show lookupB (removeB st.pureL (-lit)) v = _
              rw [lookupB_removeB hnd, if_neg (by omega : ¬ v = -lit), g1]
              exact (if_mem_congr hne1 hne2).symm
            · show lookupB (removeB st.pureL (-lit)) (-v) = _
              rw [lookupB_removeB hnd, if_neg (by omega : ¬ -v = -lit), g2]
              exact (if_mem_congr hne2 hne1).symm
            · show containsB (insertB (insertB st.removedL (iabs lit) false)
                  (-(iabs lit)) false) v = true ↔ _
              unfold containsB
              rw [lookupB_insertB, if_neg (by omega : ¬ v = -(iabs lit)),
                lookupB_insertB, if_neg (by omega : ¬ v = iabs lit)]
              show containsB st.removedL v = true ↔ _
              rw [g3]
              exact (and_mem_congr hne1 hne2).symm
            · show containsB (insertB (insertB st.removedL (iabs lit) false)
                  (-(iabs lit)) false) (-v) = true ↔ _
              unfold containsB
              rw [lookupB_insertB, if_neg (by omega : ¬ -v = -(iabs lit)),
                lookupB_insertB, if_neg (by omega : ¬ -v = iabs lit)]
              show containsB st.removedL (-v) = true ↔ _
              rw [g4]
              exact (and_mem_congr hne1 hne2).symm
      · -- same polarity sighted again: no state change
        have hoppf : containsB st.pureL (-lit) = false := by
          cases h : containsB st.pureL (-lit)
          · rfl
          · exact absurd h hopp
        have hstep : pleStep st lit = st := by
          rcases hor with h | h <;> simp [pleStep, hra, hrb, h, hoppf]
        rw [hstep]
        have hlitP : lit ∈ P := by
          rcases iabs_cases lit with hl | hl
          · have hc1 : containsB st.pureL (iabs lit) = true := by
              rcases hor with h | h
              · exact h
              · rw [show -(iabs lit) = -lit by omega, hoppf] at h
                cases h
            have hcc : iabs lit ∈ P ∧ -(iabs lit) ∉ P := by
              by_contra hc
              rw [if_neg hc] at h1
              rw [containsB_eq_false_iff.2 h1] at hc1
              cases hc1
            rw [hl]; exact hcc.1
          · have hc1 : containsB st.pureL (-(iabs lit)) = true := by
              rcases hor with h | h
              · rw [show iabs lit = -lit by omega, hoppf] at h
                cases h
              · exact h
            have hcc : -(iabs lit) ∈ P ∧ iabs lit ∉ P := by
              by_contra hc
              rw [if_neg hc] at h2
              rw [containsB_eq_false_iff.2 h2] at hc1
              cases hc1
            rw [hl]; exact hcc.1
        exact plinv_carry hlitP ⟨hnd, hI⟩

theorem pleFold_inv : ∀ (lits P : List Int) (st : PLState),
    (∀ l ∈ lits, l ≠ 0) → PLInv P st → PLInv (P ++ lits) (lits.foldl pleStep st) := by
  intro lits
  induction lits with
  | nil =>
    intro P st _ hinv
    simpa using hinv
  | cons l rest ih =>
    intro P st hnz hinv
    rw [List.foldl_cons]
    have hstep := pleStep_inv (hnz l (List.mem_cons_self _ _)) hinv
    have := ih (P ++ [l]) (pleStep st l)
      (fun x hx => hnz x (List.mem_cons_of_mem _ hx)) hstep
    simpa [List.append_assoc] using this

theorem foldl_pleClause_eq (L : List (List Int)) (st : PLState) :
    L.foldl pleClause st = L.flatten.foldl pleStep st := by
  induction L generalizing st with
  | nil => rfl
  | cons c cs ih =>
    rw [List.foldl_cons, List.flatten_cons, List.foldl_append]
    exact ih (pleClause st c)

theorem plinv_init : PLInv [] { pureL := [], removedL := [] } := by
  refine ⟨List.nodup_nil, fun v hv => ?_⟩
  refine ⟨?_, ?_, ?_, ?_⟩ <;> simp [lookupB, containsB]

theorem pleScan_inv (F : List (List Int)) (hnz : ∀ c ∈ F, ∀ l ∈ c, l ≠ 0) :
    PLInv F.flatten (pleScan F) := by
  have he : pleScan F = F.flatten.foldl pleStep { pureL := [], removedL := [] } :=
    foldl_pleClause_eq F _
  rw [he]
  have hnzf : ∀ l ∈ F.flatten, l ≠ 0 := by
    intro l hl
    rcases List.mem_flatten.1 hl with ⟨c, hc, hlc⟩
    exact hnz c hc l hlc
  simpa using pleFold_inv F.flatten [] _ hnzf plinv_init

/-! ## The abs-keys of the candidate map are distinct -/

theorem map_iabs_fst (m : BMap) :
    (m.map fun p => iabs p.1) = (m.map Prod.fst).map iabs := by
  rw [List.map_map]
  rfl

theorem pleStep_absNodup (st : PLState) (lit : Int)
    (h : (st.pureL.map fun p => iabs p.1).Nodup) :
    ((pleStep st lit).pureL.map fun p => iabs p.1).Nodup := by
  simp only [pleStep]
  by_cases hrem : (!containsB st.removedL (iabs lit) &&
      !containsB st.removedL (-(iabs lit))) = true
  · rw [if_pos hrem]
    by_cases hfr : (!containsB st.pureL (iabs lit) &&
        !containsB st.pureL (-(iabs lit))) = true
    · rw [if_pos hfr]
      simp only [Bool.and_eq_true, Bool.not_eq_true'] at hfr
      show ((insertB st.pureL lit (decide (0 < lit))).map fun p => iabs p.1).Nodup
      have hcl : containsB st.pureL lit = false := by
        rcases iabs_cases lit with hl | hl
        · rw [hl]; exact hfr.1
        · rw [hl]; exact hfr.2
      have hkeys2 : (insertB st.pureL lit (decide (0 < lit))).map Prod.fst =
          st.pureL.map Prod.fst ++ [lit] := by
        rw [keys_insertB, hcl]
        simp
      rw [map_iabs_fst, hkeys2, List.map_append]
      rw [List.nodup_append]
      refine ⟨by rw [← map_iabs_fst]; exact h, by simp, ?_⟩
      intro x hx
      rcases List.mem_map.1 hx with ⟨k, hk, he⟩
      simp only [List.map_cons, List.map_nil, List.mem_singleton]
      intro he2
      have hk2 : k = iabs lit ∨ k = -(iabs lit) := by
        rcases iabs_cases k with h1 | h1 <;> omega
      rcases hk2 with h1 | h1
      · have hc : containsB st.pureL (iabs lit) = true :=
          containsB_iff_mem_keys.2 (by rw [← h1]; exact hk)
        rw [hfr.1] at hc
        cases hc
      · have hc : containsB st.pureL (-(iabs lit)) = true :=
          containsB_iff_mem_keys.2 (by rw [← h1]; exact hk)
        rw [hfr.2] at hc
        cases hc
    · rw [if_neg hfr]
      by_cases hopp : containsB st.pureL (-lit) = true
      · rw [if_pos hopp]
        show ((removeB st.pureL (-lit)).map fun p => iabs p.1).Nodup
        rw [map_iabs_fst]
        refine List.Nodup.sublist (List.Sublist.map iabs (keys_removeB_sublist _ _)) ?_
        rw [← map_iabs_fst]
        exact h
      · rw [if_neg hopp]; exact h
  · rw [if_neg hrem]; exact h

theorem pleFold_absNodup : ∀ (lits : List Int) (st : PLState),
    (st.pureL.map fun p => iabs p.1).Nodup →
    ((lits.foldl pleStep st).pureL.map fun p => iabs p.1).Nodup := by
  intro lits
  induction lits with
  | nil => intro st h; exact h
  | cons l rest ih =>
    intro st h
    rw [List.foldl_cons]
    exact ih _ (pleStep_absNodup st l h)

theorem pleScan_absNodup (F : List (List Int)) :
    ((pleScan F).pureL.map fun p => iabs p.1).Nodup := by
  have he : pleScan F = F.flatten.foldl pleStep { pureL := [], removedL := [] } :=
    foldl_pleClause_eq F _
  rw [he]
  exact pleFold_absNodup _ _ (by simp)

/-! ## Lookup in the boolean map versus membership -/

theorem mem_of_lookupB {m : BMap} {k : Int} {w : Bool}
    (h : lookupB m k = some w) : (k, w) ∈ m := by
  induction m with
  | nil => simp [lookupB] at h
  | cons p rest ih =>
    obtain ⟨k0, w0⟩ := p
    by_cases hk : k0 = k
    · subst hk
      simp [lookupB] at h
      subst h; exact List.mem_cons_self _ _
    · simp only [lookupB, if_neg hk] at h
      exact List.mem_cons_of_mem _ (ih h)

theorem lookupB_of_mem_nodup {m : BMap} {k : Int} {w : Bool}
    (hn : KeysNodupB m) (h : (k, w) ∈ m) : lookupB m k = some w := by
  induction m with
  | nil => simp at h
  | cons p rest ih =>
    obtain ⟨k0, w0⟩ := p
    simp only [KeysNodupB, List.map_cons, List.nodup_cons] at hn
    rcases List.mem_cons.1 h with h1 | h1
    · obtain ⟨hk, hw⟩ := Prod.mk.injEq .. ▸ h1
      subst hk; subst hw; simp [lookupB]
    · have hne : k0 ≠ k := by
        rintro rfl
        exact hn.1 (List.mem_map.2 ⟨(k0, w), h1, rfl⟩)
      simp only [lookupB, if_neg hne]
      exact ih hn.2 h1

/-! ## The assignment update loop of pure_literal_elimination -/

theorem lookupA_applyPure_not_mem (ps : BMap) (A : Assign) (x : Int)
    (h : ∀ p ∈ ps, ¬ iabs p.1 = x) : lookupA (applyPure A ps) x = lookupA A x := by
  induction ps generalizing A with
  | nil => rfl
  | cons p rest ih =>
    obtain ⟨k, b⟩ := p
    simp only [applyPure]
    rw [ih _ (fun q hq => h q (List.mem_cons_of_mem _ hq))]
    rw [lookupA_insertA,
      if_neg (fun he : x = iabs k => h (k, b) (List.mem_cons_self _ _) he.symm)]

theorem lookupA_applyPure_mem (ps : BMap) (A : Assign) (k : Int) (b : Bool)
    (hnd : (ps.map fun p => iabs p.1).Nodup) (hmem : (k, b) ∈ ps) :
    lookupA (applyPure A ps) (iabs k) = some (some b) := by
  induction ps generalizing A with
  | nil => cases hmem
  | cons p rest ih =>
    obtain ⟨k0, b0⟩ := p
    simp only [List.map_cons, List.nodup_cons] at hnd
    rcases List.mem_cons.1 hmem with he | he
    · cases he
      simp only [applyPure]
      rw [lookupA_applyPure_not_mem _ _ _ ?hrest]
      · rw [lookupA_insertA, if_pos rfl]
      case hrest =>
        intro p hp he2
        exact hnd.1 (by rw [← he2]; exact List.mem_map.2 ⟨p, hp, rfl⟩)
    · simp only [applyPure]
      exact ih _ hnd.2 he

/-! ## Claim C6: pure-literal elimination -/

/-- C6. pure_literal_elimination assigns a value to a variable iff all of
that variable's occurrences in the formula share one polarity (True for
pure-positive, False for pure-negative; a variable seen with both
polarities, or not at all, keeps its incoming value), and it returns the
formula simplified under the updated assignment. -/
theorem pure_literal_spec (F : List (List Int)) (A : Assign)
    (hnz : ∀ c ∈ F, ∀ l ∈ c, l ≠ 0) (v : Int) (hv : 0 < v) :
    ((occursPos v F ∧ ¬ occursNeg v F) →
      lookupA (pure_literal_elimination F A).2 v = some (some true)) ∧
    ((occursNeg v F ∧ ¬ occursPos v F) →
      lookupA (pure_literal_elimination F A).2 v = some (some false)) ∧
    ((¬ (occursPos v F ∧ ¬ occursNeg v F) ∧ ¬ (occursNeg v F ∧ ¬ occursPos v F)) →
      lookupA (pure_literal_elimination F A).2 v = lookupA A v) ∧
    (pure_literal_elimination F A).1 =
      simplify_formula F (pure_literal_elimination F A).2 := by
  obtain ⟨hnd, hI⟩ := pleScan_inv F hnz
  obtain ⟨i1, i2, i3, i4⟩ := hI v hv
  have habs := pleScan_absNodup F
  have hpos : occursPos v F ↔ v ∈ F.flatten := by
    unfold occursPos
    rw [List.mem_flatten]
  have hneg : occursNeg v F ↔ -v ∈ F.flatten := by
    unfold occursNeg
    rw [List.mem_flatten]
  refine ⟨?_, ?_, ?_, rfl⟩
  · rintro ⟨hp, hn⟩
    have hcond : v ∈ F.flatten ∧ -v ∉ F.flatten :=
      ⟨hpos.1 hp, fun hm => hn (hneg.2 hm)⟩
    rw [if_pos hcond] at i1
    have hm : (v, true) ∈ (pleScan F).pureL := mem_of_lookupB i1
    show lookupA (applyPure A (pleScan F).pureL) v = some (some true)
    have hres := lookupA_applyPure_mem _ A v true habs hm
    rwa [iabs_pos_eq hv] at hres
  · rintro ⟨hp, hn⟩
    have hcond : -v ∈ F.flatten ∧ v ∉ F.flatten :=
      ⟨hneg.1 hp, fun hm => hn (hpos.2 hm)⟩
    rw [if_pos hcond] at i2
    have hm : (-v, false) ∈ (pleScan F).pureL := mem_of_lookupB i2
    show lookupA (applyPure A (pleScan F).pureL) v = some (some false)
    have hres := lookupA_applyPure_mem _ A (-v) false habs hm
    rwa [iabs_eq_of_neg_lit hv rfl] at hres
  · rintro ⟨hnp, hnn⟩
    show lookupA (applyPure A (pleScan F).pureL) v = lookupA A v
    apply lookupA_applyPure_not_mem
    intro p hp he
    have hk2 : p.1 = v ∨ p.1 = -v := by
      rcases iabs_cases p.1 with h1 | h1 <;> omega
    rcases hk2 with h1 | h1
    · have hl : lookupB (pleScan F).pureL v = some p.2 := by
        apply lookupB_of_mem_nodup hnd
        rw [← h1]
        simpa using hp
      rw [i1] at hl
      by_cases hcond : v ∈ F.flatten ∧ -v ∉ F.flatten
      · exact hnp ⟨hpos.2 hcond.1, fun hocc => hcond.2 (hneg.1 hocc)⟩
      · rw [if_neg hcond] at hl
        cases hl
    · have hl : lookupB (pleScan F).pureL (-v) = some p.2 := by
        apply lookupB_of_mem_nodup hnd
        rw [← h1]
        simpa using hp
      rw [i2] at hl
      by_cases hcond : -v ∈ F.flatten ∧ v ∉ F.flatten
      · exact hnn ⟨hneg.2 hcond.1, fun hocc => hcond.2 (hpos.1 hocc)⟩
      · rw [if_neg hcond] at hl
        cases hl

/-- Witness for C6 at the concrete formula from the spec: elimination
assigns 3 to True and 4 to False, leaves 1 and 2 Unknown, and simplifies
the formula to exactly [[1, 2]]. -/
theorem pure_literal_spec_witness :
    lookupA (pure_literal_elimination [[1, 2], [2, 3], [-4, -2, 3], [-1, -2, 3], [-4, 2, 3]]
      (initial_assignment [[1, 2], [2, 3], [-4, -2, 3], [-1, -2, 3], [-4, 2, 3]])).2 3 =
        some (some true) ∧
    lookupA (pure_literal_elimination [[1, 2], [2, 3], [-4, -2, 3], [-1, -2, 3], [-4, 2, 3]]
      (initial_assignment [[1, 2], [2, 3], [-4, -2, 3], [-1, -2, 3], [-4, 2, 3]])).2 4 =
        some (some false) ∧
    lookupA (pure_literal_elimination [[1, 2], [2, 3], [-4, -2, 3], [-1, -2, 3], [-4, 2, 3]]
      (initial_assignment [[1, 2], [2, 3], [-4, -2, 3], [-1, -2, 3], [-4, 2, 3]])).2 1 =
        some none ∧
    lookupA (pure_literal_elimination [[1, 2], [2, 3], [-4, -2, 3], [-1, -2, 3], [-4, 2, 3]]
      (initial_assignment [[1, 2], [2, 3], [-4, -2, 3], [-1, -2, 3], [-4, 2, 3]])).2 2 =
        some none ∧
    (pure_literal_elimination [[1, 2], [2, 3], [-4, -2, 3], [-1, -2, 3], [-4, 2, 3]]
      (initial_assignment [[1, 2], [2, 3], [-4, -2, 3], [-1, -2, 3], [-4, 2, 3]])).1 =
        [[1, 2]] :=
  ⟨(pure_literal_spec [[1, 2], [2, 3], [-4, -2, 3], [-1, -2, 3], [-4, 2, 3]]
      (initial_assignment [[1, 2], [2, 3], [-4, -2, 3], [-1, -2, 3], [-4, 2, 3]])
      (by decide) 3 (by decide)).1 (by unfold occursPos occursNeg; decide),
    by decide, by decide, by decide, by decide⟩

/-! ## Literal truth under assignment updates -/

theorem containsA_insertA (A : Assign) (k x : Int) (w : Option Bool) :
    containsA (insertA A k w) x = true ↔ (x = k ∨ containsA A x = true) := by
  unfold containsA
  rw [lookupA_insertA]
  by_cases hx : x = k
  · simp [hx]
  · simp [hx]

theorem litTrue_insert_unknown {A : Assign} {v : Int} {w : Option Bool} {lit : Int}
    (hunk : lookupA A v = some none) (h : litTrueUnder A lit) :
    litTrueUnder (insertA A v w) lit := by
  unfold litTrueUnder at h ⊢
  by_cases hp : 0 < lit
  · rw [if_pos hp] at h ⊢
    have hne : ¬ lit = v := by
      rintro rfl
      rw [h] at hunk
      cases hunk
    rw [lookupA_insertA, if_neg hne]
    exact h
  · rw [if_neg hp] at h ⊢
    have hne : ¬ iabs lit = v := by
      rintro he
      rw [← he] at hunk
      rw [h] at hunk
      cases hunk
    rw [lookupA_insertA, if_neg hne]
    exact h

theorem litTrue_defaultTrue {A : Assign} {lit : Int}
    (h : litTrueUnder A lit) : litTrueUnder (defaultTrue A) lit := by
  unfold litTrueUnder at h ⊢
  by_cases hp : 0 < lit
  · rw [if_pos hp] at h ⊢
    rw [lookupA_defaultTrue, h]
    rfl
  · rw [if_neg hp] at h ⊢
    rw [lookupA_defaultTrue, h]
    rfl

theorem lookupA_defaultTrue_total {A : Assign} {x : Int} {w : Option Bool}
    (h : lookupA A x = some w) : ∃ y, lookupA (defaultTrue A) x = some (some y) := by
  rw [lookupA_defaultTrue, h]
  cases w with
  | none => exact ⟨true, rfl⟩
  | some y => exact ⟨y, rfl⟩

theorem clauseSatA_insert_unknown {A : Assign} {v : Int} {w : Option Bool} {c : List Int}
    (hunk : lookupA A v = some none) (h : clauseSatA A c) :
    clauseSatA (insertA A v w) c := by
  obtain ⟨lit, hm, ht⟩ := h
  exact ⟨lit, hm, litTrue_insert_unknown hunk ht⟩

theorem clauseSatA_defaultTrue {A : Assign} {c : List Int}
    (h : clauseSatA A c) : clauseSatA (defaultTrue A) c := by
  obtain ⟨lit, hm, ht⟩ := h
  exact ⟨lit, hm, litTrue_defaultTrue ht⟩

theorem litTrue_of_classifySat {v : Int} {b : Bool} {A : Assign} {lit : Int}
    (hv : ¬ v = 0) (h : classifyLit v (some b) A lit = .sat) :
    litTrueUnder (insertA A v (some b)) lit := by
  unfold classifyLit at h
  unfold litTrueUnder
  by_cases hp : 0 < lit
  · rw [if_pos hp] at h
    rw [if_pos hp, lookupA_insertA]
    by_cases hlv : lit = v
    · rw [if_pos hlv] at h
      by_cases hvt : (some b : Option Bool) = some true
      · rw [if_pos hlv]
        simp at hvt
        rw [hvt]
      · rw [if_neg hvt] at h; cases h
    · rw [if_neg hlv] at h
      rw [if_neg hlv]
      by_cases h1 : lookupA A lit = some none
      · rw [if_pos h1] at h; cases h
      · rw [if_neg h1] at h
        by_cases h2 : lookupA A lit = some (some true)
        · exact h2
        · rw [if_neg h2] at h
          by_cases h3 : lookupA A lit = some (some false)
          · rw [if_pos h3] at h; cases h
          · rw [if_neg h3] at h; cases h
  · rw [if_neg hp] at h
    rw [if_neg hp, lookupA_insertA]
    by_cases hlv : lit = -v
    · rw [if_pos hlv] at h
      by_cases hvf : (some b : Option Bool) = some false
      · have habs : iabs lit = v := by
          unfold iabs
          split <;> omega
        rw [if_pos habs]
        simp at hvf
        rw [hvf]
      · rw [if_neg hvf] at h; cases h
    · rw [if_neg hlv] at h
      have habs : ¬ iabs lit = v := by
        unfold iabs
        split <;> omega
      rw [if_neg habs]
      by_cases h1 : lookupA A (iabs lit) = some none
      · rw [if_pos h1] at h; cases h
      · rw [if_neg h1] at h
        by_cases h2 : lookupA A (iabs lit) = some (some false)
        · exact h2
        · rw [if_neg h2] at h
          by_cases h3 : lookupA A (iabs lit) = some (some true)
          · rw [if_pos h3] at h; cases h
          · rw [if_neg h3] at h; cases h

/-! ## An UNDETERMINED node always leaves an Unknown variable -/

theorem skip_lookup {v : Int} {val : Option Bool} {A : Assign} {lit : Int}
    (hv : ¬ v = 0) (hcov : containsA A (iabs lit) = true)
    (h : classifyLit v val A lit = .skip) :
    ∃ w, ¬ w = v ∧ lookupA A w = some none := by
  unfold classifyLit at h
  by_cases hp : 0 < lit
  · rw [if_pos hp] at h
    by_cases hlv : lit = v
    · rw [if_pos hlv] at h
      by_cases hvt : val = some true
      · rw [if_pos hvt] at h; cases h
      · rw [if_neg hvt] at h; cases h
    · rw [if_neg hlv] at h
      cases hA : lookupA A lit with
      | none =>
        exfalso
        unfold containsA at hcov
        rw [iabs_pos_eq hp, hA] at hcov
        cases hcov
      | some w =>
        cases w with
        | none => exact ⟨lit, hlv, hA⟩
        | some bb =>
          exfalso
          rw [hA] at h
          cases bb <;> simp at h
  · rw [if_neg hp] at h
    by_cases hlv : lit = -v
    · rw [if_pos hlv] at h
      by_cases hvf : val = some false
      · rw [if_pos hvf] at h; cases h
      · rw [if_neg hvf] at h; cases h
    · rw [if_neg hlv] at h
      cases hA : lookupA A (iabs lit) with
      | none =>
        exfalso
        unfold containsA at hcov
        rw [hA] at hcov
        cases hcov
      | some w =>
        cases w with
        | none =>
          refine ⟨iabs lit, ?_, hA⟩
          unfold iabs
          split <;> omega
        | some bb =>
          exfalso
          rw [hA] at h
          cases bb <;> simp at h

theorem undet_unknown_exists (n : Node) (hvar : ¬ n.var = 0)
    (hcov : ∀ c ∈ n.formula, ∀ l ∈ c, containsA n.assignment (iabs l) = true)
    (hfc : false_check n = 1) :
    ∃ w, ¬ w = n.var ∧ lookupA n.assignment w = some none := by
  have hA : ¬ ∃ c ∈ n.formula, ∀ lit ∈ c,
      classifyLit n.var n.value n.assignment lit = .fals := by
    intro hx
    have hh := (false_check_eq_zero_iff n).2 hx
    rw [hfc] at hh
    norm_num at hh
  have hB : ¬ ∀ c ∈ n.formula, ∃ lit ∈ c,
      classifyLit n.var n.value n.assignment lit = .sat := by
    intro hx
    have hh := (false_check_eq_two_iff n).2 hx
    rw [hfc] at hh
    norm_num at hh
  push_neg at hA hB
  obtain ⟨c, hc, hcall⟩ := hB
  obtain ⟨lit, hlit, hnf⟩ := hA c hc
  have hns := hcall lit hlit
  have hskip : classifyLit n.var n.value n.assignment lit = .skip := by
    cases hcl : classifyLit n.var n.value n.assignment lit with
    | sat => exact absurd hcl hns
    | fals => exact absurd hcl hnf
    | skip => rfl
  exact skip_lookup hvar (hcov c hc lit hlit) hskip

/-! ## Well-formedness of the assignment produced by the pipeline -/

theorem addClauseVars_nodup {A : Assign} (c : List Int)
    (h : KeysNodupA A) : KeysNodupA (addClauseVars A c) := by
  induction c generalizing A with
  | nil => exact h
  | cons lit rest ih =>
    simp only [addClauseVars]
    apply ih
    by_cases hc : containsA A (iabs lit) = true
    · rw [if_pos hc]; exact h
    · rw [if_neg hc]; exact keysNodup_insertA _ _ h

theorem initialAssignGo_nodup {A : Assign} (F : List (List Int))
    (h : KeysNodupA A) : KeysNodupA (initialAssignGo A F) := by
  induction F generalizing A with
  | nil => exact h
  | cons c cs ih =>
    simp only [initialAssignGo]
    exact ih (addClauseVars_nodup c h)

theorem initial_assignment_nodup (F : List (List Int)) :
    KeysNodupA (initial_assignment F) :=
  initialAssignGo_nodup F (by simp [KeysNodupA])

theorem containsA_addClauseVars_mono {A : Assign} {x : Int} (c : List Int)
    (h : containsA A x = true) : containsA (addClauseVars A c) x = true := by
  induction c generalizing A with
  | nil => exact h
  | cons lit rest ih =>
    simp only [addClauseVars]
    apply ih
    by_cases hc : containsA A (iabs lit) = true
    · rw [if_pos hc]; exact h
    · rw [if_neg hc]; exact (containsA_insertA _ _ _ _).2 (Or.inr h)

theorem containsA_initialGo_mono {A : Assign} {x : Int} (F : List (List Int))
    (h : containsA A x = true) : containsA (initialAssignGo A F) x = true := by
  induction F generalizing A with
  | nil => exact h
  | cons c cs ih =>
    simp only [initialAssignGo]
    exact ih (containsA_addClauseVars_mono c h)

theorem addClauseVars_covers {A : Assign} (c : List Int) :
    ∀ l ∈ c, containsA (addClauseVars A c) (iabs l) = true := by
  induction c generalizing A with
  | nil => intro l hl; cases hl
  | cons lit rest ih =>
    intro l hl
    simp only [addClauseVars]
    rcases List.mem_cons.1 hl with he | hl2
    · subst he
      apply containsA_addClauseVars_mono
      by_cases hc : containsA A (iabs l) = true
      · rw [if_pos hc]; exact hc
      · rw [if_neg hc]; exact (containsA_insertA _ _ _ _).2 (Or.inl rfl)
    · exact ih _ hl2

theorem initialGo_covers {A : Assign} (F : List (List Int)) :
    ∀ c ∈ F, ∀ l ∈ c, containsA (initialAssignGo A F) (iabs l) = true := by
  induction F generalizing A with
  | nil => intro c hc; cases hc
  | cons c0 cs ih =>
    intro c hc l hl
    simp only [initialAssignGo]
    rcases List.mem_cons.1 hc with he | hc2
    · exact containsA_initialGo_mono cs (addClauseVars_covers c0 l (he ▸ hl))
    · exact ih c hc2 l hl

theorem initial_assignment_covers (F : List (List Int)) :
    ∀ c ∈ F, ∀ l ∈ c, containsA (initial_assignment F) (iabs l) = true :=
  initialGo_covers F

theorem applyPure_nodup {A : Assign} (ps : BMap)
    (h : KeysNodupA A) : KeysNodupA (applyPure A ps) := by
  induction ps generalizing A with
  | nil => exact h
  | cons p rest ih =>
    obtain ⟨k, b⟩ := p
    simp only [applyPure]
    exact ih (keysNodup_insertA _ _ h)

theorem containsA_applyPure_mono {A : Assign} {x : Int} (ps : BMap)
    (h : containsA A x = true) : containsA (applyPure A ps) x = true := by
  induction ps generalizing A with
  | nil => exact h
  | cons p rest ih =>
    obtain ⟨k, b⟩ := p
    simp only [applyPure]
    exact ih ((containsA_insertA _ _ _ _).2 (Or.inr h))

theorem keyPred_insertB {m : BMap} {P : Int → Prop} {k : Int} {w : Bool}
    (hA : ∀ p ∈ m, P p.1) (hk : P k) : ∀ p ∈ insertB m k w, P p.1 := by
  induction m with
  | nil => simpa [insertB] using hk
  | cons q rest ih =>
    obtain ⟨k0, w0⟩ := q
    by_cases h0 : k0 = k
    · subst h0
      simp only [insertB, if_pos rfl]
      intro p hp
      rcases List.mem_cons.1 hp with h | h
      · subst h; exact hk
      · exact hA p (List.mem_cons_of_mem _ h)
    · simp only [insertB, if_neg h0]
      intro p hp
      rcases List.mem_cons.1 hp with h | h
      · subst h; exact hA (k0, w0) (List.mem_cons_self _ _)
      · exact ih (fun q hq => hA q (List.mem_cons_of_mem _ hq)) p h

theorem mem_removeB_sub {m : BMap} {k : Int} : ∀ p ∈ removeB m k, p ∈ m := by
  induction m with
  | nil => intro p hp; cases hp
  | cons q rest ih =>
    obtain ⟨k0, w0⟩ := q
    intro p hp
    by_cases h0 : k0 = k
    · subst h0
      simp only [removeB, if_pos rfl] at hp
      exact List.mem_cons_of_mem _ hp
    · simp only [removeB, if_neg h0] at hp
      rcases List.mem_cons.1 hp with h | h
      · subst h; exact List.mem_cons_self _ _
      · exact List.mem_cons_of_mem _ (ih p h)

theorem pleStep_keysNZ (st : PLState) (lit : Int) (hl : lit ≠ 0)
    (h : ∀ p ∈ st.pureL, p.1 ≠ 0) : ∀ p ∈ (pleStep st lit).pureL, p.1 ≠ 0 := by
  simp only [pleStep]
  by_cases hrem : (!containsB st.removedL (iabs lit) &&
      !containsB st.removedL (-(iabs lit))) = true
  · rw [if_pos hrem]
    by_cases hfr : (!containsB st.pureL (iabs lit) &&
        !containsB st.pureL (-(iabs lit))) = true
    · rw [if_pos hfr]
      exact keyPred_insertB (P := fun x => x ≠ 0) h hl
    · rw [if_neg hfr]
      by_cases hopp : containsB st.pureL (-lit) = true
      · rw [if_pos hopp]
        intro p hp
        exact h p (mem_removeB_sub p hp)
      · rw [if_neg hopp]; exact h
  · rw [if_neg hrem]; exact h

theorem pleFold_keysNZ : ∀ (lits : List Int) (st : PLState),
    (∀ l ∈ lits, l ≠ 0) → (∀ p ∈ st.pureL, p.1 ≠ 0) →
    ∀ p ∈ (lits.foldl pleStep st).pureL, p.1 ≠ 0 := by
  intro lits
  induction lits with
  | nil => intro st _ h; exact h
  | cons l rest ih =>
    intro st hnz h
    rw [List.foldl_cons]
    exact ih _ (fun x hx => hnz x (List.mem_cons_of_mem _ hx))
      (pleStep_keysNZ st l (hnz l (List.mem_cons_self _ _)) h)

theorem pleScan_keysNZ (F : List (List Int)) (hnz : ∀ c ∈ F, ∀ l ∈ c, l ≠ 0) :
    ∀ p ∈ (pleScan F).pureL, p.1 ≠ 0 := by
  have he : pleScan F = F.flatten.foldl pleStep { pureL := [], removedL := [] } :=
    foldl_pleClause_eq F _
  rw [he]
  refine pleFold_keysNZ F.flatten _ ?_ ?_
  · intro l hl
    rcases List.mem_flatten.1 hl with ⟨c, hc, hlc⟩
    exact hnz c hc l hlc
  · intro p hp; cases hp

theorem applyPure_keysNZ {A : Assign} (ps : BMap)
    (hp : ∀ p ∈ ps, p.1 ≠ 0) (h : ∀ p ∈ A, p.1 ≠ 0) :
    ∀ p ∈ applyPure A ps, p.1 ≠ 0 := by
  induction ps generalizing A with
  | nil => exact h
  | cons q rest ih =>
    obtain ⟨k, b⟩ := q
    simp only [applyPure]
    refine ih (fun x hx => hp x (List.mem_cons_of_mem _ hx)) ?_
    apply keyPred_insertA (P := fun x => x ≠ 0) h
    have hknz : k ≠ 0 := hp (k, b) (List.mem_cons_self _ _)
    have := iabs_pos hknz
    omega

theorem addClauseVars_keysNZ {A : Assign} (c : List Int)
    (hc : ∀ l ∈ c, l ≠ 0) (h : ∀ p ∈ A, p.1 ≠ 0) :
    ∀ p ∈ addClauseVars A c, p.1 ≠ 0 := by
  induction c generalizing A with
  | nil => exact h
  | cons lit rest ih =>
    simp only [addClauseVars]
    refine ih (fun x hx => hc x (List.mem_cons_of_mem _ hx)) ?_
    by_cases hcc : containsA A (iabs lit) = true
    · rw [if_pos hcc]; exact h
    · rw [if_neg hcc]
      apply keyPred_insertA (P := fun x => x ≠ 0) h
      have := iabs_pos (hc lit (List.mem_cons_self _ _))
      omega

theorem initialGo_keysNZ {A : Assign} (F : List (List Int))
    (hnz : ∀ c ∈ F, ∀ l ∈ c, l ≠ 0) (h : ∀ p ∈ A, p.1 ≠ 0) :
    ∀ p ∈ initialAssignGo A F, p.1 ≠ 0 := by
  induction F generalizing A with
  | nil => exact h
  | cons c cs ih =>
    simp only [initialAssignGo]
    exact ih (fun d hd => hnz d (List.mem_cons_of_mem _ hd))
      (addClauseVars_keysNZ c (hnz c (List.mem_cons_self _ _)) h)

/-! ## Properties of the root node built by the pipeline -/

theorem mkRoot_assignment_nodup (F : List (List Int)) :
    KeysNodupA (mkRoot F).assignment :=
  applyPure_nodup _ (initial_assignment_nodup F)

theorem mkRoot_covers (F : List (List Int)) :
    ∀ c ∈ F, ∀ l ∈ c, containsA (mkRoot F).assignment (iabs l) = true := by
  intro c hc l hl
  exact containsA_applyPure_mono _ (initial_assignment_covers F c hc l hl)

theorem mkRoot_keysNZ (F : List (List Int)) (hnz : ∀ c ∈ F, ∀ l ∈ c, l ≠ 0) :
    ∀ p ∈ (mkRoot F).assignment, p.1 ≠ 0 :=
  applyPure_keysNZ _ (pleScan_keysNZ F hnz)
    (initialGo_keysNZ F hnz (fun p hp => by cases hp))

theorem mkRoot_formula_sub (F : List (List Int)) :
    ∀ c ∈ (mkRoot F).formula, c ∈ F := by
  intro c hc
  exact (List.mem_filter.1 hc).1

theorem mkRoot_sound (F : List (List Int)) : SoundNode F (mkRoot F) := by
  refine ⟨mkRoot_assignment_nodup F, ?_, ?_, ?_, Or.inl rfl⟩
  · intro c hc
    by_cases hs : clauseSatisfiedB (mkRoot F).assignment c = true
    · exact Or.inr (clauseSatisfiedB_iff.1 hs)
    · left
      refine List.mem_filter.2 ⟨hc, ?_⟩
      have hs2 : clauseSatisfiedB (mkRoot F).assignment c = false := by
        cases h : clauseSatisfiedB (mkRoot F).assignment c
        · rfl
        · exact absurd h hs
      show (!(clauseSatisfiedB (mkRoot F).assignment c)) = true
      rw [hs2]
      rfl
  · exact mkRoot_covers F
  · intro c hc l hl
    exact mkRoot_covers F c (mkRoot_formula_sub F c hc) l hl

/-! ## Run-level soundness of the search -/

theorem bst_sound (F0 : List (List Int)) :
    ∀ (fuel : Nat) (n : Node) (tl : List Node),
      SoundNode F0 n → SoundStack F0 tl →
      (∀ fl sol, build_search_tree fuel n tl = .solved fl sol → SolOK F0 sol) ∧
      (∀ fl tl2, build_search_tree fuel n tl = .backtrack fl tl2 → SoundStack F0 tl2) := by
  intro fuel
  induction fuel with
  | zero =>
    intro n tl _ _
    constructor
    · intro fl sol h; simp [build_search_tree] at h
    · intro fl tl2 h; simp [build_search_tree] at h
  | succ fuel ih =>
    intro n tl hn htl
    by_cases hvar : n.var = 0
    · cases hk : get_assignment_keys n.assignment with
      | nil =>
        constructor
        · intro fl sol h
          rw [bst_root_panic hvar hk] at h
          cases h
        · intro fl tl2 h
          rw [bst_root_panic hvar hk] at h
          cases h
      | cons d ds =>
        obtain ⟨hnd, hform, hcovF, hcovN, _⟩ := hn
        have hd : lookupA n.assignment d = some none :=
          lookupA_of_mem_gak hnd (by rw [hk]; exact List.mem_cons_self _ _)
        have hchT : SoundNode F0 ⟨n.formula, some true, d, n.assignment⟩ :=
          ⟨hnd, hform, hcovF, hcovN, Or.inr ⟨hd, true, rfl⟩⟩
        have hchF : SoundNode F0 ⟨n.formula, some false, d, n.assignment⟩ :=
          ⟨hnd, hform, hcovF, hcovN, Or.inr ⟨hd, false, rfl⟩⟩
        have hstk : SoundStack F0 (add_task ⟨n.formula, some false, d, n.assignment⟩ tl) := by
          intro m hm
          rcases List.mem_cons.1 hm with he | hm2
          · exact he ▸ hchF
          · exact htl m hm2
        have hrec := ih _ _ hchT hstk
        constructor
        · intro fl sol h
          rw [bst_root_step hvar hk] at h
          exact hrec.1 fl sol h
        · intro fl tl2 h
          rw [bst_root_step hvar hk] at h
          exact hrec.2 fl tl2 h
    · by_cases hfc0 : false_check n = 0
      · constructor
        · intro fl sol h
          rw [bst_conflict hvar hfc0] at h
          cases h
        · intro fl tl2 h
          rw [bst_conflict hvar hfc0] at h
          cases h
          exact htl
      · by_cases hfc2 : false_check n = 2
        · obtain ⟨hnd, hform, hcovF, hcovN, hlast⟩ := hn
          rcases hlast with h0 | ⟨hunk, b, hb⟩
          · exact absurd h0 hvar
          constructor
          · intro fl sol h
            rw [bst_solution hvar hfc2] at h
            cases h
            rw [hb]
            constructor
            · intro c hc
              rcases hform c hc with hcf | hcs
              · obtain ⟨lit, hlm, hsat⟩ := (false_check_eq_two_iff n).1 hfc2 c hcf
                rw [hb] at hsat
                refine ⟨lit, hlm, ?_⟩
                exact litTrue_defaultTrue (litTrue_of_classifySat hvar hsat)
              · obtain ⟨lit, hlm, ht⟩ := hcs
                exact ⟨lit, hlm, litTrue_defaultTrue (litTrue_insert_unknown hunk ht)⟩
            · intro c hc lit hlm
              have hcc := hcovF c hc lit hlm
              unfold containsA at hcc
              cases hA : lookupA n.assignment (iabs lit) with
              | none => rw [hA] at hcc; cases hcc
              | some w =>
                have h2 : ∃ w2, lookupA (insertA n.assignment n.var (some b)) (iabs lit) =
                    some w2 := by
                  rw [lookupA_insertA]
                  by_cases he : iabs lit = n.var
                  · exact ⟨some b, if_pos he⟩
                  · exact ⟨w, by rw [if_neg he]; exact hA⟩
                obtain ⟨w2, hw2⟩ := h2
                exact lookupA_defaultTrue_total hw2
          · intro fl tl2 h
            rw [bst_solution hvar hfc2] at h
            cases h
        · have hfc1 : false_check n = 1 := by
            rcases false_check_cases n with h | h | h
            · exact absurd h hfc0
            · exact h
            · exact absurd h hfc2
          obtain ⟨hnd, hform, hcovF, hcovN, hlast⟩ := hn
          rcases hlast with h0 | ⟨hunk, b, hb⟩
          · exact absurd h0 hvar
          obtain ⟨w, hwv, hwunk⟩ := undet_unknown_exists n hvar hcovN hfc1
          have hwnew : lookupA (insertA n.assignment n.var n.value) w = some none := by
            rw [lookupA_insertA, if_neg hwv]
            exact hwunk
          cases hk : get_assignment_keys (insertA n.assignment n.var n.value) with
          | nil => exact absurd hk (gak_ne_nil hwnew)
          | cons d ds =>
            have hnd2 : KeysNodupA (insertA n.assignment n.var n.value) :=
              keysNodup_insertA _ _ hnd
            have hd : lookupA (insertA n.assignment n.var n.value) d = some none :=
              lookupA_of_mem_gak hnd2 (by rw [hk]; exact List.mem_cons_self _ _)
            have hform2 : ∀ c ∈ F0,
                c ∈ simplify_formula n.formula (insertA n.assignment n.var n.value) ∨
                clauseSatA (insertA n.assignment n.var n.value) c := by
              intro c hc
              rcases hform c hc with hcf | hcs
              · by_cases hs :
                    clauseSatisfiedB (insertA n.assignment n.var n.value) c = true
                · exact Or.inr (clauseSatisfiedB_iff.1 hs)
                · left
                  refine List.mem_filter.2 ⟨hcf, ?_⟩
                  have hs2 : clauseSatisfiedB (insertA n.assignment n.var n.value) c =
                      false := by
                    cases hx : clauseSatisfiedB (insertA n.assignment n.var n.value) c
                    · rfl
                    · exact absurd hx hs
                  show (!(clauseSatisfiedB (insertA n.assignment n.var n.value) c)) = true
                  rw [hs2]
                  rfl
              · exact Or.inr (clauseSatA_insert_unknown hunk hcs)
            have hcovF2 : ∀ c ∈ F0, ∀ lit ∈ c,
                containsA (insertA n.assignment n.var n.value) (iabs lit) = true :=
              fun c hc l hl => (containsA_insertA _ _ _ _).2 (Or.inr (hcovF c hc l hl))
            have hcovN2 : ∀ c ∈ simplify_formula n.formula
                  (insertA n.assignment n.var n.value), ∀ lit ∈ c,
                containsA (insertA n.assignment n.var n.value) (iabs lit) = true := by
              intro c hc l hl
              have hcf : c ∈ n.formula := (List.mem_filter.1 hc).1
              exact (containsA_insertA _ _ _ _).2 (Or.inr (hcovN c hcf l hl))
            have hchT : SoundNode F0
                ⟨simplify_formula n.formula (insertA n.assignment n.var n.value),
                  some true, d, insertA n.assignment n.var n.value⟩ :=
              ⟨hnd2, hform2, hcovF2, hcovN2, Or.inr ⟨hd, true, rfl⟩⟩
            have hchF : SoundNode F0
                ⟨simplify_formula n.formula (insertA n.assignment n.var n.value),
                  some false, d, insertA n.assignment n.var n.value⟩ :=
              ⟨hnd2, hform2, hcovF2, hcovN2, Or.inr ⟨hd, false, rfl⟩⟩
            have hstk : SoundStack F0 (add_task
                ⟨simplify_formula n.formula (insertA n.assignment n.var n.value),
                  some false, d, insertA n.assignment n.var n.value⟩ tl) := by
              intro m hm
              rcases List.mem_cons.1 hm with he | hm2
              · exact he ▸ hchF
              · exact htl m hm2
            have hrec := ih _ _ hchT hstk
            constructor
            · intro fl sol h
              rw [bst_undet_step hvar hfc1 hk] at h
              exact hrec.1 fl sol h
            · intro fl tl2 h
              rw [bst_undet_step hvar hfc1 hk] at h
              exact hrec.2 fl tl2 h

theorem loop_sound (F0 : List (List Int)) :
    ∀ (iter fuel : Nat) (tl : List Node) (sol : Assign),
      SoundStack F0 tl → search_loop iter fuel tl = .sat sol → SolOK F0 sol := by
  intro iter
  induction iter with
  | zero =>
    intro fuel tl sol hst h
    cases tl with
    | nil => cases h
    | cons n rest => cases h
  | succ iter ih =>
    intro fuel tl sol hst h
    cases tl with
    | nil => cases h
    | cons n rest =>
      have hbst := bst_sound F0 fuel n rest (hst n (List.mem_cons_self _ _))
        (fun m hm => hst m (List.mem_cons_of_mem _ hm))
      cases hb : build_search_tree fuel n rest with
      | outOfFuel =>
        simp only [search_loop, hb] at h
        cases h
      | panicked =>
        simp only [search_loop, hb] at h
        cases h
      | solved fl s =>
        simp only [search_loop, hb] at h
        cases h
        exact hbst.1 fl sol hb
      | backtrack fl tl2 =>
        simp only [search_loop, hb] at h
        exact ih fl tl2 sol (hbst.2 fl tl2 hb) h

/-! ## Claim C1: soundness of a SATISFIABLE verdict -/

/-- C1. Whenever a run of the solver reports a solution, the emitted
assignment makes at least one literal true in every clause of the original
input formula and maps every variable of the original formula to True or
False. -/
theorem solver_soundness (F : List (List Int)) (fuel : Nat) (sol : Assign)
    (h : run_solver fuel F = .sat sol) :
    (∀ c ∈ F, ∃ lit ∈ c, litTrueUnder sol lit) ∧
    (∀ c ∈ F, ∀ lit ∈ c, ∃ x, lookupA sol (iabs lit) = some (some x)) := by
  refine loop_sound F fuel fuel [mkRoot F] sol ?_ h
  intro m hm
  rcases List.mem_cons.1 hm with he | hm2
  · exact he ▸ mkRoot_sound F
  · cases hm2

/-- Witness for C1: the run on [[1, 2], [-1, -2]] reports the assignment
1 := True, 2 := False, which satisfies both clauses and is total. -/
theorem solver_soundness_witness :
    (∀ c ∈ [[1, 2], [-1, -2]], ∃ lit ∈ c,
      litTrueUnder [(1, some true), (2, some false)] lit) ∧
    (∀ c ∈ [[1, 2], [-1, -2]], ∀ lit ∈ c, ∃ x,
      lookupA [(1, some true), (2, some false)] (iabs lit) = some (some x)) :=
  solver_soundness [[1, 2], [-1, -2]] 4 [(1, some true), (2, some false)] (by decide)

/-! ## Run-level termination bound -/

theorem two_pow_pos (n : Nat) : 1 ≤ 2 ^ n :=
  Nat.one_le_two_pow

theorem stackPot_cons (n : Node) (tl : List Node) :
    stackPot (n :: tl) = (2 ^ unknownCount n.assignment - 1) + stackPot tl := by
  unfold stackPot
  rw [List.map_cons, List.sum_cons]

theorem bst_bounded :
    ∀ (u fuel : Nat) (n : Node) (tl : List Node),
      GoodNode n → unknownCount n.assignment = u → GoodStack tl →
      2 ^ u - 1 ≤ fuel →
      (∃ fl sol, build_search_tree fuel n tl = .solved fl sol) ∨
      (∃ fl tl2, build_search_tree fuel n tl = .backtrack fl tl2 ∧ GoodStack tl2 ∧
        fl < fuel ∧ stackPot tl2 + (fuel - fl) ≤ stackPot tl + (2 ^ u - 1)) := by
  intro u
  induction u with
  | zero =>
    intro fuel n tl hn hu _ _
    exfalso
    have := unknownCount_pos hn.2.2.2.1
    omega
  | succ u ih =>
    intro fuel n tl hn hu htl hfuel
    obtain ⟨hnd, hnz, hvar, hunk, ⟨b, hb⟩, hcov⟩ := hn
    have h2p : 2 ^ (u + 1) = 2 ^ u * 2 := pow_succ 2 u
    have h1p : 1 ≤ 2 ^ u := two_pow_pos u
    obtain ⟨fuel, rfl⟩ : ∃ f2, fuel = f2 + 1 := ⟨fuel - 1, by omega⟩
    by_cases hfc0 : false_check n = 0
    · right
      refine ⟨fuel, tl, bst_conflict hvar hfc0, htl, by omega, by omega⟩
    · by_cases hfc2 : false_check n = 2
      · exact Or.inl ⟨fuel, _, bst_solution hvar hfc2⟩
      · have hfc1 : false_check n = 1 := by
          rcases false_check_cases n with h | h | h
          · exact absurd h hfc0
          · exact h
          · exact absurd h hfc2
        obtain ⟨w, hwv, hwunk⟩ := undet_unknown_exists n hvar hcov hfc1
        have hwnew : lookupA (insertA n.assignment n.var n.value) w = some none := by
          rw [lookupA_insertA, if_neg hwv]
          exact hwunk
        cases hk : get_assignment_keys (insertA n.assignment n.var n.value) with
        | nil => exact absurd hk (gak_ne_nil hwnew)
        | cons d ds =>
          have hnd2 : KeysNodupA (insertA n.assignment n.var n.value) :=
            keysNodup_insertA _ _ hnd
          have hcount : unknownCount (insertA n.assignment n.var n.value) = u := by
            have h5 : unknownCount (insertA n.assignment n.var (some b)) + 1 =
                unknownCount n.assignment := unknownCount_insertA_some b hunk
            rw [hb]
            omega
          have hnz2 : ∀ p ∈ insertA n.assignment n.var n.value, p.1 ≠ 0 :=
            keyPred_insertA (P := fun x => x ≠ 0) hnz hvar
          have hd_mem : (d, none) ∈ insertA n.assignment n.var n.value :=
            mem_get_assignment_keys.1 (by rw [hk]; exact List.mem_cons_self _ _)
          have hdnz : d ≠ 0 := hnz2 (d, none) hd_mem
          have hd : lookupA (insertA n.assignment n.var n.value) d = some none :=
            lookupA_of_mem_gak hnd2 (by rw [hk]; exact List.mem_cons_self _ _)
          have hcov2 : ∀ c ∈ simplify_formula n.formula
                (insertA n.assignment n.var n.value), ∀ l ∈ c,
              containsA (insertA n.assignment n.var n.value) (iabs l) = true := by
            intro c hc l hl
            exact (containsA_insertA _ _ _ _).2
              (Or.inr (hcov c (List.mem_filter.1 hc).1 l hl))
          have hchT : GoodNode
              ⟨simplify_formula n.formula (insertA n.assignment n.var n.value),
                some true, d, insertA n.assignment n.var n.value⟩ :=
            ⟨hnd2, hnz2, hdnz, hd, ⟨true, rfl⟩, hcov2⟩
          have hchF : GoodNode
              ⟨simplify_formula n.formula (insertA n.assignment n.var n.value),
                some false, d, insertA n.assignment n.var n.value⟩ :=
            ⟨hnd2, hnz2, hdnz, hd, ⟨false, rfl⟩, hcov2⟩
          have hstk2 : GoodStack
              (⟨simplify_formula n.formula (insertA n.assignment n.var n.value),
                some false, d, insertA n.assignment n.var n.value⟩ :: tl) := by
            intro m hm
            rcases List.mem_cons.1 hm with he | hm2
            · exact he ▸ hchF
            · exact htl m hm2
          have hfuel2 : 2 ^ u - 1 ≤ fuel := by omega
          rcases ih fuel _ _ hchT hcount hstk2 hfuel2 with hsol | hback
          · obtain ⟨fl, sol, hs⟩ := hsol
            exact Or.inl ⟨fl, sol, by rw [bst_undet_step hvar hfc1 hk]; exact hs⟩
          · obtain ⟨fl, tl2, hbk, hg2, hlt, hpot⟩ := hback
            right
            refine ⟨fl, tl2, by rw [bst_undet_step hvar hfc1 hk]; exact hbk,
              hg2, by omega, ?_⟩
            rw [stackPot_cons] at hpot
            have hsp : unknownCount
                (⟨simplify_formula n.formula (insertA n.assignment n.var n.value),
                  some false, d, insertA n.assignment n.var n.value⟩ :
                  Node).assignment = u := hcount
            rw [hsp] at hpot
            omega

theorem loop_bounded :
    ∀ (iter fuel : Nat) (tl : List Node),
      GoodStack tl → stackPot tl ≤ fuel → fuel ≤ iter →
      (∃ sol, search_loop iter fuel tl = .sat sol) ∨
        search_loop iter fuel tl = .unsat := by
  intro iter
  induction iter with
  | zero =>
    intro fuel tl hg hpot hfi
    cases tl with
    | nil => exact Or.inr rfl
    | cons n rest =>
      exfalso
      have hu := unknownCount_pos (hg n (List.mem_cons_self _ _)).2.2.2.1
      have h2u : 2 ≤ 2 ^ unknownCount n.assignment := by
        calc (2 : Nat) = 2 ^ 1 := (pow_one 2).symm
        _ ≤ 2 ^ unknownCount n.assignment := Nat.pow_le_pow_right (by norm_num) hu
      rw [stackPot_cons] at hpot
      omega
  | succ iter ih =>
    intro fuel tl hg hpot hfi
    cases tl with
    | nil => exact Or.inr rfl
    | cons n rest =>
      have hgn := hg n (List.mem_cons_self _ _)
      have hgr : GoodStack rest := fun m hm => hg m (List.mem_cons_of_mem _ hm)
      rw [stackPot_cons] at hpot
      have hfuel : 2 ^ unknownCount n.assignment - 1 ≤ fuel := by omega
      rcases bst_bounded (unknownCount n.assignment) fuel n rest hgn rfl hgr hfuel with
        hsol | hback
      · obtain ⟨fl, sol, hs⟩ := hsol
        exact Or.inl ⟨sol, by simp only [search_loop, hs]⟩
      · obtain ⟨fl, tl2, hbk, hg2, hlt, hpotnew⟩ := hback
        have hrec := ih fl tl2 hg2 (by omega) (by omega)
        rcases hrec with ⟨sol, hs⟩ | hs
        · exact Or.inl ⟨sol, by simp only [search_loop, hbk]; exact hs⟩
        · exact Or.inr (by simp only [search_loop, hbk]; exact hs)

/-! ## Claim C7 (amended): termination within 2 ^ (k + 1) node expansions -/

/-- C7 (amended). Every non-root expansion that continues the search commits
a decision variable that was Unknown in the node's assignment, so the
Unknown count decreases by one per decision level; when at least one
variable remains Unknown after pure-literal preprocessing (and all literals
are nonzero), the whole search finishes with a SATISFIABLE or UNSATISFIABLE
verdict within 2 ^ (k + 1) node expansions — one unit of fuel per
invocation of build_search_tree — where k is the Unknown-variable count
after preprocessing. The bound 2 ^ k stated in the specification is too
small (see the counterexample theorem). -/
theorem search_terminates (F : List (List Int)) (fuel : Nat)
    (hnz : ∀ c ∈ F, ∀ l ∈ c, l ≠ 0)
    (hk1 : 1 ≤ unknownCount (mkRoot F).assignment)
    (hfuel : 2 ^ (unknownCount (mkRoot F).assignment + 1) ≤ fuel) :
    (∃ sol, run_solver fuel F = .sat sol) ∨ run_solver fuel F = .unsat := by
  have h2p : 2 ^ (unknownCount (mkRoot F).assignment + 1) =
      2 ^ unknownCount (mkRoot F).assignment * 2 := pow_succ 2 _
  have h1p : 1 ≤ 2 ^ unknownCount (mkRoot F).assignment :=
    two_pow_pos _
  obtain ⟨f2, rfl⟩ : ∃ f2, fuel = f2 + 1 := ⟨fuel - 1, by omega⟩
  have hlen : (get_assignment_keys (mkRoot F).assignment).length =
      unknownCount (mkRoot F).assignment := length_gak _
  cases hgk : get_assignment_keys (mkRoot F).assignment with
  | nil =>
    rw [hgk] at hlen
    simp at hlen
    omega
  | cons d ds =>
    have hroot := @bst_root_step (mkRoot F) [] f2 d ds rfl hgk
    simp only [add_task] at hroot
    have hnd := mkRoot_assignment_nodup F
    have hnzk := mkRoot_keysNZ F hnz
    have hd_mem : (d, none) ∈ (mkRoot F).assignment :=
      mem_get_assignment_keys.1 (by rw [hgk]; exact List.mem_cons_self _ _)
    have hdnz : d ≠ 0 := hnzk (d, none) hd_mem
    have hd : lookupA (mkRoot F).assignment d = some none :=
      lookupA_of_mem_gak hnd (by rw [hgk]; exact List.mem_cons_self _ _)
    have hcovN : ∀ c ∈ (mkRoot F).formula, ∀ l ∈ c,
        containsA (mkRoot F).assignment (iabs l) = true :=
      fun c hc l hl => mkRoot_covers F c (mkRoot_formula_sub F c hc) l hl
    have hchT : GoodNode
        ⟨(mkRoot F).formula, some true, d, (mkRoot F).assignment⟩ :=
      ⟨hnd, hnzk, hdnz, hd, ⟨true, rfl⟩, hcovN⟩
    have hchF : GoodNode
        ⟨(mkRoot F).formula, some false, d, (mkRoot F).assignment⟩ :=
      ⟨hnd, hnzk, hdnz, hd, ⟨false, rfl⟩, hcovN⟩
    have hstk : GoodStack [⟨(mkRoot F).formula, some false, d, (mkRoot F).assignment⟩] := by
      intro m hm
      rcases List.mem_cons.1 hm with he | hm2
      · exact he ▸ hchF
      · cases hm2
    have hfuel2 : 2 ^ unknownCount (mkRoot F).assignment - 1 ≤ f2 := by omega
    rcases bst_bounded (unknownCount (mkRoot F).assignment) f2 _ _ hchT rfl hstk hfuel2 with
      hsol | hback
    · obtain ⟨fl, sol, hs⟩ := hsol
      refine Or.inl ⟨sol, ?_⟩
      show search_loop (f2 + 1) (f2 + 1) [mkRoot F] = _
      simp only [search_loop]
      rw [hroot, hs]
    · obtain ⟨fl, tl2, hbk, hg2, hlt, hpot⟩ := hback
      rw [stackPot_cons] at hpot
      have hred : (⟨(mkRoot F).formula, some false, d, (mkRoot F).assignment⟩ :
          Node).assignment = (mkRoot F).assignment := rfl
      rw [hred] at hpot
      have hnil : stackPot ([] : List Node) = 0 := rfl
      rw [hnil] at hpot
      have hrec := loop_bounded f2 fl tl2 hg2 (by omega) (by omega)
      rcases hrec with ⟨sol, hs⟩ | hs
      · refine Or.inl ⟨sol, ?_⟩
        show search_loop (f2 + 1) (f2 + 1) [mkRoot F] = _
        simp only [search_loop]
        rw [hroot, hbk]
        exact hs
      · refine Or.inr ?_
        show search_loop (f2 + 1) (f2 + 1) [mkRoot F] = _
        simp only [search_loop]
        rw [hroot, hbk]
        exact hs

/-- Witness for C7 (amended) at the formula [[1], [-1]]: one Unknown after
preprocessing, and 2 ^ 2 = 4 units of fuel complete the search. -/
theorem search_terminates_witness :
    (∃ sol, run_solver 4 [[1], [-1]] = .sat sol) ∨
      run_solver 4 [[1], [-1]] = .unsat :=
  search_terminates [[1], [-1]] 4 (by decide) (by decide) (by decide)

end DPLL
